import Mathlib

/-!
Verification of the plugin-marketplace search tool
(`skills/plugin-search/scripts/search_plugins.py`).

The Python source is shallowly embedded below.  Strings are modelled as
`List Char` (Python strings are sequences of code points, and all the
operations the tool uses — slicing, `startswith`, `split`, `in`,
`lstrip`, `rstrip`, `lower`, `replace` — are code-point-wise).  The file
system is an explicit association list from cache-file name to
(content, mtime); network requests are modelled by passing their
outcome in as data.  JSON payloads are modelled at the granularity the
program inspects them (a parsed document, a well-formed-but-non-object
document, or unparseable text).
-/

namespace PluginSearch

/-- Python strings as lists of code points. -/
abbrev Path := List Char

/-- Literal helper: the code points of a string literal. -/
def chars (s : String) : Path := s.data

/-- `str.lower()` (code-point-wise, as used on the ASCII data involved). -/
def lowerP (p : Path) : Path := p.map Char.toLower

/-- Python `str.isspace` for the characters `str.split()` splits on. -/
def isSpace (c : Char) : Bool :=
  c == ' ' || c == '\t' || c == '\n' || c.toNat == 11 || c.toNat == 12 || c == '\r'

/-- Accumulator pass for `splitWs`: `acc` holds the reversed current word. -/
def splitWsAux : Path → Path → List Path
  | [], acc => if acc.isEmpty then [] else [acc.reverse]
  | c :: rest, acc =>
    if isSpace c then
      if acc.isEmpty then splitWsAux rest [] else acc.reverse :: splitWsAux rest []
    else splitWsAux rest (c :: acc)

/-- `str.split()` with no separator: split on runs of whitespace, dropping
empty pieces (used on the search query). -/
def splitWs (s : Path) : List Path := splitWsAux s []

/-- `str.split('/')`: every maximal `'/'`-free run, keeping empty pieces
(`"".split('/') = [""]`, `"/".split('/') = ["", ""]`). -/
def splitSlash : Path → List Path
  | [] => [[]]
  | c :: rest =>
    if c = '/' then [] :: splitSlash rest
    else
      match splitSlash rest with
      | [] => [[c]]
      | h :: t => (c :: h) :: t

/-- `'/'.join(parts)`. -/
def joinSlash : List Path → Path
  | [] => []
  | [x] => x
  | x :: xs => x ++ '/' :: joinSlash xs

/-- `' '.join(parts)`. -/
def joinSpace : List Path → Path
  | [] => []
  | [x] => x
  | x :: xs => x ++ ' ' :: joinSpace xs

/-- Python substring test `pat in s`. -/
def containsSub (s pat : Path) : Bool :=
  match s with
  | [] => pat.isEmpty
  | _ :: t => pat.isPrefixOf s || containsSub t pat

/-- The substring relation the spec's words describe: `pat` occurs
contiguously inside `s`. -/
def occursIn (pat s : Path) : Prop := ∃ l r, s = l ++ pat ++ r

/-- `str.replace('.git', '')`: remove every (left-to-right, non-overlapping)
occurrence of `".git"`. -/
def replaceGit : Path → Path
  | '.' :: 'g' :: 'i' :: 't' :: rest => replaceGit rest
  | c :: rest => c :: replaceGit rest
  | [] => []

/-- `str.rstrip('/')`. -/
def rstripSlash (l : Path) : Path := (l.reverse.dropWhile (fun c => c == '/')).reverse

/-- Python string comparison (`sorted` order): lexicographic by code point. -/
def pathLe (a b : Path) : Bool :=
  match a, b with
  | [], _ => true
  | _ :: _, [] => false
  | x :: xs, y :: ys => if x < y then true else if y < x then false else pathLe xs ys

/-- Insert into a `pathLe`-sorted list. -/
def insertP (x : Path) : List Path → List Path
  | [] => [x]
  | y :: ys => if pathLe x y then x :: y :: ys else y :: insertP x ys

/-- `sorted(...)` on a list of strings (same multiset, `pathLe`-sorted). -/
def sortPaths : List Path → List Path
  | [] => []
  | x :: xs => insertP x (sortPaths xs)

/-! ## The two URL regexes of `parse_github_url` (lines 269-283)

`re.search` semantics: try the pattern at every start position, left to
right.  At one position the pattern
`github\.com/([^/]+)/([^/]+)/tree/([^/]+)` matches exactly when the text
continues with the literal `github.com/`, a non-empty slash-free run
(group 1 — greedy, but since `[^/]+` cannot cross the following literal
`/` the run is the maximal one), `/`, a second such run (group 2),
the literal `/tree/`, and a third non-empty slash-free run (group 3). -/

/-- `github\.com/([^/]+)/([^/]+)/tree/([^/]+)` tried at one position. -/
def tryPat1At (s : Path) : Option (Path × Path × Path) :=
  if (chars "github.com/").isPrefixOf s then
    let rest := s.drop 11
    let owner := rest.takeWhile (fun c => c != '/')
    if owner.isEmpty then none
    else if (rest.drop owner.length).head? = some '/' then
      let rest2 := (rest.drop owner.length).tail
      let repo := rest2.takeWhile (fun c => c != '/')
      if repo.isEmpty then none
      else if (chars "/tree/").isPrefixOf (rest2.drop repo.length) then
        let branch := ((rest2.drop repo.length).drop 6).takeWhile (fun c => c != '/')
        if branch.isEmpty then none else some (owner, repo, branch)
      else none
    else none
  else none

/-- `re.search` of the first pattern: leftmost position that matches. -/
def searchPat1 (s : Path) : Option (Path × Path × Path) :=
  match s with
  | [] => tryPat1At []
  | _ :: t =>
    match tryPat1At s with
    | some x => some x
    | none => searchPat1 t

/-- `github\.com/([^/]+)/([^/]+?)(?:\.git)?(?:/|$)` tried at one position.
Group 2 is non-greedy with an optional `.git` before `/`-or-end; writing
the full `'/'`-free run after the owner as `run`, the regex matches iff
`run` is non-empty, and group 2 is `run` less a trailing `".git"` when
`run` has one and is longer than it. -/
def tryPat2At (s : Path) : Option (Path × Path) :=
  if (chars "github.com/").isPrefixOf s then
    let rest := s.drop 11
    let owner := rest.takeWhile (fun c => c != '/')
    if owner.isEmpty then none
    else if (rest.drop owner.length).head? = some '/' then
      let run := (rest.drop owner.length).tail.takeWhile (fun c => c != '/')
      if run.isEmpty then none
      else if 5 ≤ run.length ∧ (chars ".git").isSuffixOf run then
        some (owner, run.take (run.length - 4))
      else some (owner, run)
    else none
  else none

/-- `re.search` of the second pattern. -/
def searchPat2 (s : Path) : Option (Path × Path) :=
  match s with
  | [] => tryPat2At []
  | _ :: t =>
    match tryPat2At s with
    | some x => some x
    | none => searchPat2 t

/-- `parse_github_url` (lines 256-283): returns `(owner, repo, branch)`;
`repo` has every `".git"` removed (`.replace('.git','')`), `branch`
defaults to `"main"` when the branchless pattern matched. -/
def parse_github_url (url : Path) : Option (Path × Path × Path) :=
  if url.isEmpty || !containsSub url (chars "github.com") then none
  else
    match searchPat1 url with
    | some (o, r, b) => some (o, replaceGit r, b)
    | none =>
      match searchPat2 url with
      | some (o, r) => some (o, replaceGit r, chars "main")
      | none => none

/-! ## The marketplace base-URL regex of `format_plugin_output` (line 437)

`github(?:usercontent)?\.com/([^/]+)/([^/]+)` via `re.search`. -/

/-- The base regex tried at one position. -/
def tryBaseAt (s : Path) : Option (Path × Path) :=
  let afterHost : Option Path :=
    if (chars "githubusercontent.com/").isPrefixOf s then some (s.drop 22)
    else if (chars "github.com/").isPrefixOf s then some (s.drop 11)
    else none
  match afterHost with
  | none => none
  | some rest =>
    let owner := rest.takeWhile (fun c => c != '/')
    if owner.isEmpty then none
    else if (rest.drop owner.length).head? = some '/' then
      let repo := (rest.drop owner.length).tail.takeWhile (fun c => c != '/')
      if repo.isEmpty then none else some (owner, repo)
    else none

/-- `re.search` of the base regex over the whole base URL. -/
def searchGithubBase (s : Path) : Option (Path × Path) :=
  match s with
  | [] => tryBaseAt []
  | _ :: t =>
    match tryBaseAt s with
    | some x => some x
    | none => searchGithubBase t

/-! ## Repository Inspector (`fetch_github_repo_info`, lines 286-389) -/

/-- One entry of the recursive tree listing: `{path, type}`
(`item.get('path','')` and `item.get('type')`; a missing `type` is
modelled as a value different from `"blob"`). -/
structure TreeEntry where
  path : Path
  type : Path
deriving DecidableEq

/-- The tree-derived facts set on the info dictionary (lines 377-379). -/
structure TreeFacts where
  commands : List Path
  skills : List Path
  has_mcp : Bool
deriving DecidableEq

/-- Loop body of the tree walk (lines 346-375), acting on the running
`(commands, skills, has_mcp)` state. -/
def stepOne (pfx : Path) (acc : List Path × List Path × Bool) (item : TreeEntry) :
    List Path × List Path × Bool :=
  if pfx.isPrefixOf item.path then
    let rel := item.path.drop pfx.length
    let mcp := acc.2.2 || rel == chars ".mcp.json" || (chars "/.mcp.json").isSuffixOf rel
    let cmds :=
      if (chars "commands/").isPrefixOf rel then
        let remaining := rel.drop 9
        if remaining ≠ [] ∧ remaining.contains '/' = false then
          if item.type == chars "blob" then acc.1 ++ [remaining] else acc.1
        else acc.1
      else acc.1
    let skl :=
      if (chars "skills/").isPrefixOf rel then
        let parts := splitSlash (rel.drop 7)
        if containsSub rel (chars "SKILL.md") then
          let skill_path : Option Path :=
            if parts.getLast? = some (chars "SKILL.md") then some (joinSlash parts.dropLast)
            else none
          match skill_path with
          | some sp => if sp ≠ [] ∧ sp ∉ acc.2.1 then acc.2.1 ++ [sp] else acc.2.1
          | none => acc.2.1
        else acc.2.1
      else acc.2.1
    (cmds, skl, mcp)
  else acc

/-- The `for item in tree` loop (line 346). -/
def analyzeLoop (pfx : Path) : List TreeEntry → (List Path × List Path × Bool) →
    List Path × List Path × Bool
  | [], acc => acc
  | item :: rest, acc => analyzeLoop pfx rest (stepOne pfx acc item)

/-- Prefix normalisation (lines 340-344): `plugin_path.rstrip('/') + '/'`,
or `""` for the repository root. -/
def pluginPfx (plugin_path : Path) : Path :=
  if plugin_path = [] then [] else rstripSlash plugin_path ++ ['/']

/-- Tree analysis of `fetch_github_repo_info` (lines 335-379): walk the
entries, then emit `sorted(commands)`, `sorted(skills)`, `has_mcp`. -/
def treeAnalysis (tree : List TreeEntry) (plugin_path : Path) : TreeFacts :=
  let r := analyzeLoop (pluginPfx plugin_path) tree ([], [], false)
  ⟨sortPaths r.1, sortPaths r.2.1, r.2.2⟩

/-- Characterisation device for the command branch of `stepOne`. -/
def commandOf (pfx : Path) (item : TreeEntry) : Option Path :=
  if pfx.isPrefixOf item.path then
    let rel := item.path.drop pfx.length
    if (chars "commands/").isPrefixOf rel then
      let remaining := rel.drop 9
      if remaining ≠ [] ∧ remaining.contains '/' = false ∧ item.type == chars "blob" then
        some remaining
      else none
    else none
  else none

/-- Characterisation device for the skill branch of `stepOne`. -/
def skillOf (pfx : Path) (item : TreeEntry) : Option Path :=
  if pfx.isPrefixOf item.path then
    let rel := item.path.drop pfx.length
    if (chars "skills/").isPrefixOf rel then
      let parts := splitSlash (rel.drop 7)
      if containsSub rel (chars "SKILL.md") ∧ parts.getLast? = some (chars "SKILL.md") ∧
          joinSlash parts.dropLast ≠ [] then
        some (joinSlash parts.dropLast)
      else none
    else none
  else none

/-- Summary fields read from the repository endpoint with their `.get`
defaults (lines 314-318). -/
structure SummaryData where
  stars : Nat
  updated_at : Option Path
  default_branch : Path
deriving DecidableEq

/-- Outcome of the summary request (lines 300-312): any curl failure,
timeout, unparseable body, or non-object body makes the whole function
return `None`, so they are collapsed into `.fail`. -/
inductive SummaryResp where
  | fail
  | ok (d : SummaryData)
deriving DecidableEq

/-- Outcome of the tree request (lines 322-332): nonzero curl exit
(`curlErr`), `subprocess.TimeoutExpired` (`timeout` — caught only by the
function-level handler, line 386), a body that is not valid JSON
(`parseErr` — caught by the inner handler, line 381), a body that is
valid JSON but not an object (`nonDict` — `tree_data.get` raises
`AttributeError`, which reaches the function-level `except Exception`),
or a parsed object whose `tree` list (default `[]`) is `tree`. -/
inductive TreeResp where
  | curlErr
  | timeout
  | parseErr
  | nonDict
  | ok (tree : List TreeEntry)
deriving DecidableEq

/-- The info dictionary built by `fetch_github_repo_info`; the three
tree-derived keys are absent (`none`) unless the tree walk ran. -/
structure RepoInfo where
  stars : Nat
  updated_at : Option Path
  default_branch : Path
  commands : Option (List Path)
  skills : Option (List Path)
  has_mcp : Option Bool
deriving DecidableEq

/-- Caller-side accessor `repo_data.get('commands', [])` (line 466). -/
def RepoInfo.commandsOrDefault (i : RepoInfo) : List Path := i.commands.getD []

/-- Caller-side accessor `repo_data.get('skills', [])` (line 470). -/
def RepoInfo.skillsOrDefault (i : RepoInfo) : List Path := i.skills.getD []

/-- Caller-side truthiness of `repo_data.get('has_mcp')` (line 462). -/
def RepoInfo.hasMcpTruthy (i : RepoInfo) : Bool := i.has_mcp.getD false

/-- `fetch_github_repo_info` (lines 286-389) with the two network calls
passed in as outcomes.  The tree walk runs only when `plugin_path` is
given (including the empty string, line 321). -/
def fetch_github_repo_info (summary : SummaryResp) (treeResp : TreeResp)
    (plugin_path : Option Path) : Option RepoInfo :=
  match summary with
  | .fail => none
  | .ok d =>
    let info : RepoInfo := ⟨d.stars, d.updated_at, d.default_branch, none, none, none⟩
    match plugin_path with
    | none => some info
    | some p =>
      match treeResp with
      | .curlErr => some info
      | .timeout => none
      | .parseErr => some info
      | .nonDict => none
      | .ok tree =>
        let facts := treeAnalysis tree p
        some { info with
                commands := some facts.commands
                skills := some facts.skills
                has_mcp := some facts.has_mcp }

/-! ## Source resolution inside `format_plugin_output` (lines 420-452) -/

/-- The shapes of a plugin's declared `source` value the resolution code
distinguishes: a plain string, a dict with `source == 'url'` carrying a
`url` string, or a dict of any other shape. -/
inductive SourceDecl where
  | str (s : Path)
  | urlDict (url : Path)
  | dictOther
deriving DecidableEq

/-- The resolution core of `format_plugin_output` (lines 431-452): from the
declared source, the owning marketplace's `base_url` and the plugin's
`homepage`, compute `(parse_github_url github_url, plugin_path)`.  A
relative-path source with a matching base builds
`https://github.com/{owner}/{repo}/tree/main/{plugin_path}` where
`plugin_path = source.lstrip('./')`; a url-dict source uses its URL
directly with `plugin_path = ""`; anything else keeps the homepage and no
plugin path. -/
def resolveSource (source : SourceDecl) (base_url : Path) (homepage : Path) :
    Option (Path × Path × Path) × Option Path :=
  match source with
  | .str s =>
    if (chars "./").isPrefixOf s || (chars "../").isPrefixOf s then
      match searchGithubBase base_url with
      | some (o, r) =>
        let plugin_path := s.dropWhile (fun c => c == '.' || c == '/')
        let github_url :=
          chars "https://github.com/" ++ o ++ chars "/" ++ r ++ chars "/tree/main/" ++ plugin_path
        (parse_github_url github_url, some plugin_path)
      | none => (parse_github_url homepage, none)
    else (parse_github_url homepage, none)
  | .urlDict u => (parse_github_url u, some [])
  | .dictOther => (parse_github_url homepage, none)

/-! ## Registry cache, fetcher and aggregator (lines 17-183) -/

/-- `CACHE_DURATION = 60 * 60` (line 17). -/
def CACHE_DURATION : Int := 60 * 60

/-- `needs_update` (lines 37-52) with the file's existence/mtime passed
explicitly: `True` if the file does not exist or `now - mtime` exceeds
the maximum age. -/
def needs_update (mtime : Option Int) (now : Int) (max_age_seconds : Int) : Bool :=
  match mtime with
  | none => true
  | some t => now - t > max_age_seconds

/-- One configured marketplace `{name, base_url}` (lines 144-146). -/
structure Marketplace where
  name : Path
  base_url : Path
deriving DecidableEq

/-- A plugin entry as read from a marketplace document, at the granularity
the tool inspects it (each field via `.get` with its default). -/
structure RawPlugin where
  pname : Path
  description : Path
  category : Path
  tags : List Path
  keywords : List Path
deriving DecidableEq

/-- The `owner` field of a marketplace document: absent, not a dict, or a
dict whose `name` may be absent (lines 164-165). -/
inductive OwnerVal where
  | missing
  | nonDict
  | dict (oname : Option Path)
deriving DecidableEq

/-- A parsed marketplace document: `data.get('plugins', [])` and the
`owner` value (lines 162-164). -/
structure MarketDoc where
  plugins : List RawPlugin
  owner : OwnerVal
deriving DecidableEq

/-- A cache file's text at the granularity the loader distinguishes:
valid JSON that is an object (`obj`), valid JSON that is not an object
(`nonObj` — `data.get` raises on it), or not valid JSON (`malformed`). -/
inductive CacheText where
  | obj (d : MarketDoc)
  | nonObj
  | malformed
deriving DecidableEq

/-- The data directory as an association list: cache-file name to
`(text, mtime)`; first binding wins. -/
def FS : Type := List (Path × CacheText × Int)

instance : DecidableEq FS := by unfold FS; infer_instance

/-- `os.path.exists` + read: the current binding of a cache file. -/
def FS.lookup : FS → Path → Option (CacheText × Int)
  | [], _ => none
  | (m, c, t) :: rest, n => if m = n then some (c, t) else FS.lookup rest n

/-- `os.path.getmtime` for an existing file. -/
def FS.mtime (fs : FS) (n : Path) : Option Int := (fs.lookup n).map (·.2)

/-- `os.path.exists`. -/
def FS.existsFile (fs : FS) (n : Path) : Bool := (fs.lookup n).isSome

/-- `open(file_path, 'w')` followed by a full write: replace the binding
(or create it), stamping the current time as mtime. -/
def FS.write : FS → Path → CacheText → Int → FS
  | [], n, c, t => [(n, c, t)]
  | (m, c0, t0) :: rest, n, c, t =>
    if m = n then (n, c, t) :: rest else (m, c0, t0) :: FS.write rest n c t

/-- Outcome of one `download_marketplace` attempt (lines 55-133), covering
each return path of the function: the base-URL regex fails (line 70),
curl exits nonzero (line 93), the download times out (line 125), curl is
missing (line 128), the API response is not JSON or lacks `content`
(lines 104, 121), base64 decoding raises (caught by the catch-all,
line 131), the decoded content is not valid JSON (line 121), or the
content validates (line 113) — carrying the content that would be
written. -/
inductive DLOutcome where
  | badUrl
  | curlErr
  | timeout
  | curlMissing
  | apiNotJson
  | apiNoContent
  | decodeErr
  | contentInvalid
  | contentValid (j : MarketDoc)
  | contentValidNonObj
deriving DecidableEq

/-- Whether the outcome is the single success path. -/
def DLOutcome.succeeds : DLOutcome → Bool
  | .contentValid _ => true
  | .contentValidNonObj => true
  | _ => false

/-- `download_marketplace` (lines 55-133): only the validated-content path
writes the cache file and returns `True`; every other path returns
`False` and leaves the file system untouched. -/
def download_marketplace (o : DLOutcome) (fs : FS) (name : Path) (now : Int) : Bool × FS :=
  match o with
  | .badUrl => (false, fs)
  | .curlErr => (false, fs)
  | .timeout => (false, fs)
  | .curlMissing => (false, fs)
  | .apiNotJson => (false, fs)
  | .apiNoContent => (false, fs)
  | .decodeErr => (false, fs)
  | .contentInvalid => (false, fs)
  | .contentValid j => (true, fs.write name (.obj j) now)
  | .contentValidNonObj => (true, fs.write name .nonObj now)

/-- A plugin record after aggregation: the upstream entry plus the two
injected fields `_marketplace` and `_owner` (lines 168-170). -/
structure PluginRec where
  raw : RawPlugin
  marketplace : Path
  owner : Path
deriving DecidableEq

/-- `owner_data.get('name', 'Unknown') if isinstance(owner_data, dict)
else 'Unknown'` with `data.get('owner', {})` (lines 164-165). -/
def ownerName : OwnerVal → Path
  | .dict (some n) => n
  | .dict none => chars "Unknown"
  | .missing => chars "Unknown"
  | .nonDict => chars "Unknown"

/-- Stamp each plugin of a document with the marketplace name and owner
(lines 167-170). -/
def tagPlugins (d : MarketDoc) (mname : Path) : List PluginRec :=
  d.plugins.map (fun rp => ⟨rp, mname, ownerName d.owner⟩)

/-- The load-and-merge block (lines 158-174): read the cache file, parse
it, tag its plugins.  `none` models the uncaught `AttributeError` when
the file is valid JSON but not an object (only `FileNotFoundError` and
`json.JSONDecodeError` are caught, line 172); those two cases skip the
source with a warning. -/
def loadCache (fs : FS) (mname : Path) : Option (FS × List PluginRec) :=
  match fs.lookup mname with
  | none => some (fs, [])
  | some (.malformed, _) => some (fs, [])
  | some (.nonObj, _) => none
  | some (.obj d, _) => some (fs, tagPlugins d mname)

/-- The per-source body of the aggregation loop (lines 144-174): refresh
the cache if stale, falling back to an existing cache file on download
failure and skipping the source when there is none, then load and tag. -/
def processOne (fs : FS) (m : Marketplace) (o : DLOutcome) (now : Int) :
    Option (FS × List PluginRec) :=
  if needs_update (fs.mtime m.name) now CACHE_DURATION then
    match download_marketplace o fs m.name now with
    | (true, fs1) => loadCache fs1 m.name
    | (false, fs1) =>
      if fs1.existsFile m.name then loadCache fs1 m.name else some (fs1, [])
  else loadCache fs m.name

/-- The `for marketplace in marketplaces` loop (line 144), with the
download outcome of the `i`-th source supplied by `oracle i`.  Plugins
accumulate in configuration order; `none` propagates the uncaught
exception. -/
def ensureLoop (oracle : Nat → DLOutcome) (now : Int) :
    List Marketplace → Nat → FS → Option (FS × List PluginRec)
  | [], _, fs => some (fs, [])
  | m :: rest, i, fs =>
    match processOne fs m (oracle i) now with
    | none => none
    | some (fs1, contrib) =>
      match ensureLoop oracle now rest (i + 1) fs1 with
      | none => none
      | some (fsf, ps) => some (fsf, contrib ++ ps)

/-- The aggregate returned by `ensure_all_marketplaces` (lines 179-183). -/
structure AggResult where
  plugins : List PluginRec
  total : Nat
  loaded : Nat
  finalFS : FS
deriving DecidableEq

/-- `ensure_all_marketplaces` (lines 136-183): run the loop over the
configured sources, then report all merged plugins,
`total_marketplaces = len(marketplaces)` and `loaded_marketplaces` = the
number of configured sources whose cache file exists at return time. -/
def ensure_all_marketplaces (config : List Marketplace) (oracle : Nat → DLOutcome)
    (fs0 : FS) (now : Int) : Option AggResult :=
  match ensureLoop oracle now config 0 fs0 with
  | none => none
  | some (fsf, ps) =>
    some ⟨ps, config.length, (config.filter (fun m => fsf.existsFile m.name)).length, fsf⟩

/-! ## Filter Engine (`search_plugins`, lines 186-253) -/

/-- The searchable blob of a record (lines 237-245):
`' '.join([name, description, category, ' '.join(tags), ' '.join(keywords)]).lower()`. -/
def searchableText (p : PluginRec) : Path :=
  lowerP (joinSpace [p.raw.pname, p.raw.description, p.raw.category,
    joinSpace p.raw.tags, joinSpace p.raw.keywords])

/-- `search_plugins` (lines 186-253): marketplace, category, tag and
free-text filters applied in order; each argument is skipped when falsy
(absent or empty). -/
def search_plugins (plugins : List PluginRec) (query : Option Path)
    (category : Option Path) (tags : Option (List Path)) (marketplace : Option Path) :
    List PluginRec :=
  let r1 :=
    match marketplace with
    | none => plugins
    | some mq =>
      if mq.isEmpty then plugins
      else plugins.filter (fun p => lowerP p.marketplace == lowerP mq)
  let r2 :=
    match category with
    | none => r1
    | some cq =>
      if cq.isEmpty then r1
      else r1.filter (fun p => lowerP p.raw.category == lowerP cq)
  let r3 :=
    match tags with
    | none => r2
    | some ts =>
      if ts.isEmpty then r2
      else r2.filter (fun p => ts.any (fun tag => (p.raw.tags.map lowerP).contains (lowerP tag)))
  match query with
  | none => r3
  | some q =>
    if q.isEmpty then r3
    else
      let query_terms := splitWs (lowerP q)
      r3.filter (fun p => query_terms.any (fun term => containsSub (searchableText p) term))

/-! ## General helper lemmas -/

theorem isPrefixOf_iff_exists {l s : Path} : l.isPrefixOf s = true ↔ ∃ t, s = l ++ t := by
  induction l generalizing s with
  | nil => simp [List.isPrefixOf]
  | cons c t ih =>
    cases s with
    | nil => simp [List.isPrefixOf]
    | cons d u =>
      simp only [List.isPrefixOf, Bool.and_eq_true, beq_iff_eq, ih, List.cons_append]
      constructor
      · rintro ⟨rfl, w, rfl⟩; exact ⟨w, rfl⟩
      · rintro ⟨w, hw⟩
        injection hw with h1 h2
        exact ⟨h1.symm, w, h2⟩

theorem isPrefixOf_append_self (l t : Path) : l.isPrefixOf (l ++ t) = true :=
  isPrefixOf_iff_exists.mpr ⟨t, rfl⟩

theorem takeWhile_app_all {p : Char → Bool} {l : Path} (h : ∀ c ∈ l, p c = true)
    (l2 : Path) : (l ++ l2).takeWhile p = l ++ l2.takeWhile p := by
  induction l with
  | nil => rfl
  | cons c t ih =>
    have hc := h c (by simp)
    simp [List.takeWhile_cons, hc, ih (fun d hd => h d (by simp [hd]))]

theorem drop_takeWhile_len (p : Char → Bool) (l : Path) :
    l.drop (l.takeWhile p).length = l.dropWhile p := by
  induction l with
  | nil => rfl
  | cons c t ih =>
    by_cases h : p c = true
    · simp [List.takeWhile_cons, List.dropWhile_cons, h, ih]
    · simp [List.takeWhile_cons, List.dropWhile_cons, Bool.of_not_eq_true h]

theorem takeWhile_drop_id (p : Char → Bool) (l : Path) :
    l.takeWhile p ++ l.drop (l.takeWhile p).length = l := by
  rw [drop_takeWhile_len]
  exact List.takeWhile_append_dropWhile p l

theorem count_eq_zero_of_takeWhile {l rest : Path}
    (h : l = rest.takeWhile (fun c => c != '/')) : l.count '/' = 0 := by
  rw [List.count_eq_zero]
  intro hm
  have := List.mem_takeWhile_imp (h ▸ hm)
  simp at this

theorem containsSub_iff {s pat : Path} : containsSub s pat = true ↔ occursIn pat s := by
  induction s with
  | nil =>
    simp only [containsSub, occursIn, List.isEmpty_iff]
    constructor
    · rintro rfl; exact ⟨[], [], rfl⟩
    · rintro ⟨l, r, h⟩
      rcases List.append_eq_nil.mp (List.append_eq_nil.mp h.symm).1 with ⟨-, h2⟩
      exact h2
  | cons c t ih =>
    simp only [containsSub, Bool.or_eq_true, isPrefixOf_iff_exists, ih, occursIn]
    constructor
    · rintro (⟨w, hw⟩ | ⟨l, r, rfl⟩)
      · exact ⟨[], w, by simp [hw]⟩
      · exact ⟨c :: l, r, by simp⟩
    · rintro ⟨l, r, hl⟩
      cases l with
      | nil => exact Or.inl ⟨r, by simpa using hl⟩
      | cons x xs =>
        right
        injection hl with h1 h2
        exact ⟨xs, r, h2⟩

theorem splitSlash_ne_nil (l : Path) : splitSlash l ≠ [] := by
  induction l with
  | nil => simp [splitSlash]
  | cons c t ih =>
    unfold splitSlash
    split
    · simp
    · cases h : splitSlash t with
      | nil => simp
      | cons a b => simp

theorem splitSlash_app (a b : Path) :
    splitSlash (a ++ '/' :: b) = splitSlash a ++ splitSlash b := by
  induction a with
  | nil => simp [splitSlash]
  | cons c t ih =>
    by_cases hc : c = '/'
    · subst hc; simp [splitSlash, ih]
    · simp only [List.cons_append]
      conv_lhs => rw [splitSlash]
      rw [if_neg hc, ih]
      conv_rhs => rw [splitSlash]
      rw [if_neg hc]
      cases h : splitSlash t with
      | nil => exact absurd h (splitSlash_ne_nil t)
      | cons x xs => simp

theorem splitSlash_no_slash {l : Path} (h : '/' ∉ l) : splitSlash l = [l] := by
  induction l with
  | nil => rfl
  | cons c t ih =>
    unfold splitSlash
    rw [if_neg (by rintro rfl; exact h (by simp))]
    rw [ih (fun hm => h (by simp [hm]))]

theorem joinSlash_splitSlash (l : Path) : joinSlash (splitSlash l) = l := by
  induction l with
  | nil => rfl
  | cons c t ih =>
    unfold splitSlash
    split
    · rename_i hc
      subst hc
      cases h : splitSlash t with
      | nil => exact absurd h (splitSlash_ne_nil t)
      | cons x xs =>
        rw [h] at ih
        cases xs with
        | nil =>
          show joinSlash ([] :: [x]) = '/' :: t
          simp only [joinSlash] at ih ⊢
          simp [ih]
        | cons y ys =>
          show joinSlash ([] :: x :: y :: ys) = '/' :: t
          simp only [joinSlash] at ih ⊢
          simp [ih]
    · cases h : splitSlash t with
      | nil => exact absurd h (splitSlash_ne_nil t)
      | cons x xs =>
        rw [h] at ih
        cases xs with
        | nil =>
          show joinSlash [c :: x] = c :: t
          simp only [joinSlash] at ih ⊢
          simp [ih]
        | cons y ys =>
          show joinSlash ((c :: x) :: y :: ys) = c :: t
          simp only [joinSlash] at ih ⊢
          simp [ih]

theorem joinSlash_concat (xs : List Path) (y : Path) :
    joinSlash (xs ++ [y]) = if xs = [] then y else joinSlash xs ++ '/' :: y := by
  induction xs with
  | nil => simp [joinSlash]
  | cons x t ih =>
    cases t with
    | nil => simp [joinSlash]
    | cons a b =>
      rw [if_neg (by simp)]
      have ih2 : joinSlash (a :: (b ++ [y])) = joinSlash (a :: b) ++ '/' :: y := by
        rw [show a :: (b ++ [y]) = (a :: b) ++ [y] from rfl, ih, if_neg (by simp)]
      show x ++ '/' :: joinSlash (a :: (b ++ [y])) = (x ++ '/' :: joinSlash (a :: b)) ++ '/' :: y
      rw [ih2]
      simp

theorem rstripSlash_eq_self {l : Path} (h : l.getLast? ≠ some '/') : rstripSlash l = l := by
  unfold rstripSlash
  cases hr : l.reverse with
  | nil =>
    have : l = [] := by simpa using congrArg List.reverse hr
    simp [this]
  | cons x xs =>
    rw [← List.head?_reverse, hr] at h
    have hx : (x == '/') = false := by
      cases hxe : x == '/' with
      | true => exact absurd (congrArg some (beq_iff_eq.mp hxe)) h
      | false => rfl
    rw [List.dropWhile_cons, hx]
    simp only [Bool.false_eq_true, if_false, ← hr, List.reverse_reverse]

theorem pathLe_total (a b : Path) : pathLe a b = true ∨ pathLe b a = true := by
  induction a generalizing b with
  | nil => left; rfl
  | cons x xs ih =>
    cases b with
    | nil => right; rfl
    | cons y ys =>
      rcases lt_trichotomy x y with h | h | h
      · left; simp [pathLe, h]
      · subst h
        rcases ih ys with h2 | h2
        · left; simp [pathLe, h2]
        · right; simp [pathLe, h2]
      · right; simp [pathLe, h]

theorem pathLe_trans {a b c : Path} (h1 : pathLe a b = true) (h2 : pathLe b c = true) :
    pathLe a c = true := by
  induction a generalizing b c with
  | nil => rfl
  | cons x xs ih =>
    cases b with
    | nil => simp [pathLe] at h1
    | cons y ys =>
      cases c with
      | nil => simp [pathLe] at h2
      | cons z zs =>
        simp only [pathLe] at h1 h2 ⊢
        rcases lt_trichotomy x y with hxy | hxy | hxy
        · rcases lt_trichotomy y z with hyz | hyz | hyz
          · simp [lt_trans hxy hyz]
          · subst hyz; simp [hxy]
          · rw [if_neg (lt_asymm hyz), if_pos hyz] at h2; exact absurd h2 (by simp)
        · subst hxy
          rcases lt_trichotomy x z with hyz | hyz | hyz
          · simp [hyz]
          · subst hyz
            rw [if_neg (lt_irrefl x), if_neg (lt_irrefl x)] at h1 h2 ⊢
            exact ih h1 h2
          · rw [if_neg (lt_asymm hyz), if_pos hyz] at h2; exact absurd h2 (by simp)
        · rw [if_neg (lt_asymm hxy), if_pos hxy] at h1; exact absurd h1 (by simp)

theorem mem_insertP {a x : Path} {l : List Path} :
    a ∈ insertP x l ↔ a = x ∨ a ∈ l := by
  induction l with
  | nil => simp [insertP]
  | cons y ys ih =>
    unfold insertP
    split
    · simp
    · simp only [List.mem_cons, ih]
      tauto

theorem mem_sortPaths {a : Path} {l : List Path} : a ∈ sortPaths l ↔ a ∈ l := by
  induction l with
  | nil => simp [sortPaths]
  | cons x xs ih => simp [sortPaths, mem_insertP, ih]

theorem pairwise_insertP {x : Path} {l : List Path}
    (h : l.Pairwise (fun a b => pathLe a b = true)) :
    (insertP x l).Pairwise (fun a b => pathLe a b = true) := by
  induction l with
  | nil => simp [insertP]
  | cons y ys ih =>
    rcases List.pairwise_cons.mp h with ⟨hy, hys⟩
    unfold insertP
    split
    · rename_i hxy
      refine List.pairwise_cons.mpr ⟨?_, h⟩
      intro b hb
      rcases List.mem_cons.mp hb with rfl | hb2
      · exact hxy
      · exact pathLe_trans hxy (hy b hb2)
    · rename_i hxy
      have hyx : pathLe y x = true := by
        rcases pathLe_total x y with h2 | h2
        · exact absurd h2 hxy
        · exact h2
      refine List.pairwise_cons.mpr ⟨?_, ih hys⟩
      intro b hb
      rcases mem_insertP.mp hb with rfl | hb2
      · exact hyx
      · exact hy b hb2

theorem pairwise_sortPaths (l : List Path) :
    (sortPaths l).Pairwise (fun a b => pathLe a b = true) := by
  induction l with
  | nil => simp [sortPaths]
  | cons x xs ih => exact pairwise_insertP ih

/-! ## Tree-walk characterisation lemmas -/

theorem stepOne_commands (pfx : Path) (acc : List Path × List Path × Bool) (item : TreeEntry) :
    (stepOne pfx acc item).1 = acc.1 ++ (commandOf pfx item).toList := by
  simp only [stepOne, commandOf]
  by_cases h1 : pfx.isPrefixOf item.path = true
  · rw [if_pos h1, if_pos h1]
    by_cases h2 : (chars "commands/").isPrefixOf (item.path.drop pfx.length) = true
    · rw [if_pos h2, if_pos h2]
      by_cases h3 : (item.path.drop pfx.length).drop 9 ≠ [] ∧
          ((item.path.drop pfx.length).drop 9).contains '/' = false
      · by_cases h4 : (item.type == chars "blob") = true
        · have hcond : (item.path.drop pfx.length).drop 9 ≠ [] ∧
              ((item.path.drop pfx.length).drop 9).contains '/' = false ∧
              (item.type == chars "blob") = true := ⟨h3.1, h3.2, h4⟩
          rw [if_pos h3, if_pos h4, if_pos hcond]
          simp
        · have hcond : ¬((item.path.drop pfx.length).drop 9 ≠ [] ∧
              ((item.path.drop pfx.length).drop 9).contains '/' = false ∧
              (item.type == chars "blob") = true) := fun hc => h4 hc.2.2
          rw [if_pos h3, if_neg h4, if_neg hcond]
          simp
      · have hcond : ¬((item.path.drop pfx.length).drop 9 ≠ [] ∧
            ((item.path.drop pfx.length).drop 9).contains '/' = false ∧
            (item.type == chars "blob") = true) := fun hc => h3 ⟨hc.1, hc.2.1⟩
        rw [if_neg h3, if_neg hcond]
        simp
    · rw [if_neg h2, if_neg h2]
      simp
  · rw [if_neg h1, if_neg h1]
    simp

theorem stepOne_skills (pfx : Path) (acc : List Path × List Path × Bool) (item : TreeEntry) :
    (stepOne pfx acc item).2.1 =
      match skillOf pfx item with
      | none => acc.2.1
      | some sp => if sp ∈ acc.2.1 then acc.2.1 else acc.2.1 ++ [sp] := by
  simp only [stepOne, skillOf]
  by_cases h1 : pfx.isPrefixOf item.path = true
  · rw [if_pos h1, if_pos h1]
    by_cases h2 : (chars "skills/").isPrefixOf (item.path.drop pfx.length) = true
    · rw [if_pos h2, if_pos h2]
      by_cases h3 : containsSub (item.path.drop pfx.length) (chars "SKILL.md") = true
      · rw [if_pos h3]
        by_cases h4 : (splitSlash ((item.path.drop pfx.length).drop 7)).getLast? =
            some (chars "SKILL.md")
        · rw [if_pos h4]
          by_cases h5 :
              joinSlash (splitSlash ((item.path.drop pfx.length).drop 7)).dropLast ≠ []
          · have hcond : containsSub (item.path.drop pfx.length) (chars "SKILL.md") = true ∧
                (splitSlash ((item.path.drop pfx.length).drop 7)).getLast? =
                  some (chars "SKILL.md") ∧
                joinSlash (splitSlash ((item.path.drop pfx.length).drop 7)).dropLast ≠ [] :=
              ⟨h3, h4, h5⟩
            rw [if_pos hcond]
            show (if joinSlash (splitSlash ((item.path.drop pfx.length).drop 7)).dropLast ≠ [] ∧
                joinSlash (splitSlash ((item.path.drop pfx.length).drop 7)).dropLast ∉ acc.2.1
              then acc.2.1 ++ [joinSlash (splitSlash ((item.path.drop pfx.length).drop 7)).dropLast]
              else acc.2.1) =
              if joinSlash (splitSlash ((item.path.drop pfx.length).drop 7)).dropLast ∈ acc.2.1
              then acc.2.1
              else acc.2.1 ++ [joinSlash (splitSlash ((item.path.drop pfx.length).drop 7)).dropLast]
            by_cases h6 :
                joinSlash (splitSlash ((item.path.drop pfx.length).drop 7)).dropLast ∈ acc.2.1
            · rw [if_neg (fun hc => hc.2 h6), if_pos h6]
            · rw [if_pos ⟨h5, h6⟩, if_neg h6]
          · have hcond : ¬(containsSub (item.path.drop pfx.length) (chars "SKILL.md") = true ∧
                (splitSlash ((item.path.drop pfx.length).drop 7)).getLast? =
                  some (chars "SKILL.md") ∧
                joinSlash (splitSlash ((item.path.drop pfx.length).drop 7)).dropLast ≠ []) :=
              fun hc => h5 hc.2.2
            rw [if_neg hcond]
            show (if joinSlash (splitSlash ((item.path.drop pfx.length).drop 7)).dropLast ≠ [] ∧
                joinSlash (splitSlash ((item.path.drop pfx.length).drop 7)).dropLast ∉ acc.2.1
              then acc.2.1 ++ [joinSlash (splitSlash ((item.path.drop pfx.length).drop 7)).dropLast]
              else acc.2.1) = acc.2.1
            rw [if_neg (fun hc => h5 hc.1)]
        · have hcond : ¬(containsSub (item.path.drop pfx.length) (chars "SKILL.md") = true ∧
              (splitSlash ((item.path.drop pfx.length).drop 7)).getLast? =
                some (chars "SKILL.md") ∧
              joinSlash (splitSlash ((item.path.drop pfx.length).drop 7)).dropLast ≠ []) :=
            fun hc => h4 hc.2.1
          rw [if_neg h4, if_neg hcond]
      · have hcond : ¬(containsSub (item.path.drop pfx.length) (chars "SKILL.md") = true ∧
            (splitSlash ((item.path.drop pfx.length).drop 7)).getLast? =
              some (chars "SKILL.md") ∧
            joinSlash (splitSlash ((item.path.drop pfx.length).drop 7)).dropLast ≠ []) :=
          fun hc => h3 hc.1
        rw [if_neg h3, if_neg hcond]
    · rw [if_neg h2, if_neg h2]
  · rw [if_neg h1, if_neg h1]

theorem stepOne_commands_mem (pfx : Path) (acc : List Path × List Path × Bool)
    (item : TreeEntry) (c : Path) :
    c ∈ (stepOne pfx acc item).1 ↔ c ∈ acc.1 ∨ commandOf pfx item = some c := by
  rw [stepOne_commands]
  simp [Option.mem_toList, Option.mem_def]

theorem stepOne_skills_mem (pfx : Path) (acc : List Path × List Path × Bool)
    (item : TreeEntry) (s : Path) :
    s ∈ (stepOne pfx acc item).2.1 ↔ s ∈ acc.2.1 ∨ skillOf pfx item = some s := by
  rw [stepOne_skills]
  cases hsk : skillOf pfx item with
  | none =>
    show s ∈ acc.2.1 ↔ s ∈ acc.2.1 ∨ (none : Option Path) = some s
    simp
  | some sp =>
    show s ∈ (if sp ∈ acc.2.1 then acc.2.1 else acc.2.1 ++ [sp]) ↔
      s ∈ acc.2.1 ∨ (some sp : Option Path) = some s
    simp only [Option.some.injEq]
    by_cases hin : sp ∈ acc.2.1
    · rw [if_pos hin]
      constructor
      · exact fun h => Or.inl h
      · rintro (h | rfl)
        · exact h
        · exact hin
    · rw [if_neg hin]
      simp only [List.mem_append, List.mem_singleton]
      constructor
      · rintro (h | rfl)
        · exact Or.inl h
        · exact Or.inr rfl
      · rintro (h | rfl)
        · exact Or.inl h
        · exact Or.inr rfl

theorem analyzeLoop_commands_mem (pfx : Path) (tree : List TreeEntry)
    (acc : List Path × List Path × Bool) (c : Path) :
    c ∈ (analyzeLoop pfx tree acc).1 ↔
      c ∈ acc.1 ∨ ∃ item ∈ tree, commandOf pfx item = some c := by
  induction tree generalizing acc with
  | nil => simp [analyzeLoop]
  | cons item rest ih =>
    rw [analyzeLoop, ih, stepOne_commands_mem]
    simp only [List.mem_cons]
    constructor
    · rintro ((h | h) | ⟨it, hit, h⟩)
      · exact Or.inl h
      · exact Or.inr ⟨item, Or.inl rfl, h⟩
      · exact Or.inr ⟨it, Or.inr hit, h⟩
    · rintro (h | ⟨it, (rfl | hit), h⟩)
      · exact Or.inl (Or.inl h)
      · exact Or.inl (Or.inr h)
      · exact Or.inr ⟨it, hit, h⟩

theorem analyzeLoop_skills_mem (pfx : Path) (tree : List TreeEntry)
    (acc : List Path × List Path × Bool) (s : Path) :
    s ∈ (analyzeLoop pfx tree acc).2.1 ↔
      s ∈ acc.2.1 ∨ ∃ item ∈ tree, skillOf pfx item = some s := by
  induction tree generalizing acc with
  | nil => simp [analyzeLoop]
  | cons item rest ih =>
    rw [analyzeLoop, ih, stepOne_skills_mem]
    simp only [List.mem_cons]
    constructor
    · rintro ((h | h) | ⟨it, hit, h⟩)
      · exact Or.inl h
      · exact Or.inr ⟨item, Or.inl rfl, h⟩
      · exact Or.inr ⟨it, Or.inr hit, h⟩
    · rintro (h | ⟨it, (rfl | hit), h⟩)
      · exact Or.inl (Or.inl h)
      · exact Or.inl (Or.inr h)
      · exact Or.inr ⟨it, hit, h⟩

theorem commandOf_eq_some_iff {pfx : Path} {item : TreeEntry} {c : Path} :
    commandOf pfx item = some c ↔
      item.path = pfx ++ chars "commands/" ++ c ∧ c ≠ [] ∧ c.contains '/' = false ∧
        item.type = chars "blob" := by
  unfold commandOf
  constructor
  · intro h
    by_cases h1 : pfx.isPrefixOf item.path = true
    swap
    · rw [if_neg (by simpa using h1)] at h; exact absurd h (by simp)
    rw [if_pos h1] at h
    obtain ⟨t, ht⟩ := isPrefixOf_iff_exists.mp h1
    have hdrop : item.path.drop pfx.length = t := by rw [ht, List.drop_left]
    rw [hdrop] at h
    by_cases h2 : (chars "commands/").isPrefixOf t = true
    swap
    · rw [if_neg (by simpa using h2)] at h; exact absurd h (by simp)
    rw [if_pos h2] at h
    obtain ⟨u, hu⟩ := isPrefixOf_iff_exists.mp h2
    have hdrop9 : t.drop 9 = u := by
      rw [hu, show (9 : Nat) = (chars "commands/").length from rfl, List.drop_left]
    rw [hdrop9] at h
    by_cases h3 : u ≠ [] ∧ u.contains '/' = false ∧ (item.type == chars "blob") = true
    swap
    · rw [if_neg h3] at h; exact absurd h (by simp)
    rw [if_pos h3] at h
    injection h with h
    subst h
    exact ⟨by rw [ht, hu, List.append_assoc], h3.1, h3.2.1, beq_iff_eq.mp h3.2.2⟩
  · rintro ⟨hpath, hne, hsl, hty⟩
    have h1 : pfx.isPrefixOf item.path = true := by
      rw [hpath, List.append_assoc]
      exact isPrefixOf_append_self _ _
    rw [if_pos h1]
    have hdrop : item.path.drop pfx.length = chars "commands/" ++ c := by
      rw [hpath, List.append_assoc, List.drop_left]
    rw [hdrop]
    rw [if_pos (isPrefixOf_append_self _ _)]
    have hdrop9 : (chars "commands/" ++ c).drop 9 = c := by
      rw [show (9 : Nat) = (chars "commands/").length from rfl, List.drop_left]
    rw [hdrop9]
    rw [if_pos ⟨hne, hsl, beq_iff_eq.mpr hty⟩]

theorem skillOf_eq_some_iff {pfx : Path} {item : TreeEntry} {s : Path} :
    skillOf pfx item = some s ↔
      s ≠ [] ∧ item.path = pfx ++ chars "skills/" ++ (s ++ chars "/SKILL.md") := by
  unfold skillOf
  constructor
  · intro h
    by_cases h1 : pfx.isPrefixOf item.path = true
    swap
    · rw [if_neg (by simpa using h1)] at h; exact absurd h (by simp)
    rw [if_pos h1] at h
    obtain ⟨t, ht⟩ := isPrefixOf_iff_exists.mp h1
    have hdrop : item.path.drop pfx.length = t := by rw [ht, List.drop_left]
    rw [hdrop] at h
    by_cases h2 : (chars "skills/").isPrefixOf t = true
    swap
    · rw [if_neg (by simpa using h2)] at h; exact absurd h (by simp)
    rw [if_pos h2] at h
    obtain ⟨u, hu⟩ := isPrefixOf_iff_exists.mp h2
    have hdrop7 : t.drop 7 = u := by
      rw [hu, show (7 : Nat) = (chars "skills/").length from rfl, List.drop_left]
    rw [hdrop7] at h
    by_cases h3 : containsSub t (chars "SKILL.md") = true ∧
        (splitSlash u).getLast? = some (chars "SKILL.md") ∧
        joinSlash (splitSlash u).dropLast ≠ []
    swap
    · rw [if_neg h3] at h; exact absurd h (by simp)
    rw [if_pos h3] at h
    injection h with h
    subst h
    refine ⟨h3.2.2, ?_⟩
    have hne : splitSlash u ≠ [] := splitSlash_ne_nil u
    have hlast : (splitSlash u).getLast hne = chars "SKILL.md" := by
      have := List.getLast?_eq_getLast (splitSlash u) hne
      rw [h3.2.1] at this
      exact (Option.some_injective _ this).symm
    have hsplit : splitSlash u = (splitSlash u).dropLast ++ [chars "SKILL.md"] := by
      conv_lhs => rw [← List.dropLast_append_getLast hne]
      rw [hlast]
    have hdl : (splitSlash u).dropLast ≠ [] := by
      intro hdl
      apply h3.2.2
      rw [hdl]
      rfl
    have hu2 : u = joinSlash (splitSlash u).dropLast ++ chars "/SKILL.md" := by
      conv_lhs => rw [← joinSlash_splitSlash u, hsplit]
      rw [joinSlash_concat, if_neg hdl]
      rfl
    rw [ht, hu, ← hu2, List.append_assoc]
  · rintro ⟨hne, hpath⟩
    have h1 : pfx.isPrefixOf item.path = true := by
      rw [hpath, List.append_assoc]
      exact isPrefixOf_append_self _ _
    rw [if_pos h1]
    have hdrop : item.path.drop pfx.length = chars "skills/" ++ (s ++ chars "/SKILL.md") := by
      rw [hpath, List.append_assoc, List.drop_left]
    rw [hdrop]
    rw [if_pos (isPrefixOf_append_self _ _)]
    have hdrop7 : (chars "skills/" ++ (s ++ chars "/SKILL.md")).drop 7 = s ++ chars "/SKILL.md" := by
      rw [show (7 : Nat) = (chars "skills/").length from rfl, List.drop_left]
    rw [hdrop7]
    have hsplit : splitSlash (s ++ chars "/SKILL.md") = splitSlash s ++ [chars "SKILL.md"] := by
      rw [show s ++ chars "/SKILL.md" = s ++ '/' :: chars "SKILL.md" from rfl, splitSlash_app]
      rw [splitSlash_no_slash (l := chars "SKILL.md") (by decide)]
    have hcontains : containsSub (chars "skills/" ++ (s ++ chars "/SKILL.md"))
        (chars "SKILL.md") = true := by
      apply containsSub_iff.mpr
      refine ⟨chars "skills/" ++ s ++ ['/'], [], ?_⟩
      rw [show chars "/SKILL.md" = '/' :: chars "SKILL.md" from rfl]
      simp
    have hgl : (splitSlash (s ++ chars "/SKILL.md")).getLast? = some (chars "SKILL.md") := by
      rw [hsplit]
      exact List.getLast?_concat _
    have hjl : joinSlash (splitSlash (s ++ chars "/SKILL.md")).dropLast = s := by
      rw [hsplit, List.dropLast_concat, joinSlash_splitSlash]
    rw [if_pos ⟨hcontains, hgl, by rw [hjl]; exact hne⟩, hjl]

theorem pluginPfx_eq {P : Path} (h1 : P ≠ []) (h2 : P.getLast? ≠ some '/') :
    pluginPfx P = P ++ ['/'] := by
  unfold pluginPfx
  rw [if_neg h1, rstripSlash_eq_self h2]

/-! ## Regex-embedding lemmas -/

theorem isEmpty_false_of_ne {l : Path} (h : l ≠ []) : l.isEmpty = false := by
  cases l with
  | nil => exact absurd rfl h
  | cons c t => rfl

theorem neSlash_of_not_mem {l : Path} (h : '/' ∉ l) : ∀ c ∈ l, (c != '/') = true := by
  intro c hc
  simp only [bne_iff_ne, ne_eq]
  rintro rfl
  exact h hc

theorem takeWhile_run {r ext : Path} (hr : '/' ∉ r)
    (hext : ext = [] ∨ ∃ t, ext = '/' :: t) :
    (r ++ ext).takeWhile (fun c => c != '/') = r := by
  rw [takeWhile_app_all (neSlash_of_not_mem hr) ext]
  rcases hext with rfl | ⟨t, rfl⟩
  · simp
  · simp [List.takeWhile_cons]

theorem tryPat1At_cons_ne {c : Char} {s : Path} (h : c ≠ 'g') : tryPat1At (c :: s) = none := by
  have hp : (chars "github.com/").isPrefixOf (c :: s) = false := by
    rw [show chars "github.com/" = 'g' :: chars "ithub.com/" from rfl]
    show (('g' == c) && (chars "ithub.com/").isPrefixOf s) = false
    rw [show ('g' == c) = false from beq_eq_false_iff_ne.mpr (fun hgc => h hgc.symm)]
    rfl
  simp only [tryPat1At, hp, Bool.false_eq_true, if_false]

theorem tryPat2At_cons_ne {c : Char} {s : Path} (h : c ≠ 'g') : tryPat2At (c :: s) = none := by
  have hp : (chars "github.com/").isPrefixOf (c :: s) = false := by
    rw [show chars "github.com/" = 'g' :: chars "ithub.com/" from rfl]
    show (('g' == c) && (chars "ithub.com/").isPrefixOf s) = false
    rw [show ('g' == c) = false from beq_eq_false_iff_ne.mpr (fun hgc => h hgc.symm)]
    rfl
  simp only [tryPat2At, hp, Bool.false_eq_true, if_false]

theorem searchPeel1 {c : Char} {s : Path} (h : tryPat1At (c :: s) = none) :
    searchPat1 (c :: s) = searchPat1 s := by
  show (match tryPat1At (c :: s) with | some x => some x | none => searchPat1 s) = searchPat1 s
  rw [h]

theorem searchPeel2 {c : Char} {s : Path} (h : tryPat2At (c :: s) = none) :
    searchPat2 (c :: s) = searchPat2 s := by
  show (match tryPat2At (c :: s) with | some x => some x | none => searchPat2 s) = searchPat2 s
  rw [h]

theorem searchPat1_cons_some {c : Char} {s : Path} {x : Path × Path × Path}
    (h : tryPat1At (c :: s) = some x) : searchPat1 (c :: s) = some x := by
  show (match tryPat1At (c :: s) with | some x => some x | none => searchPat1 s) = some x
  rw [h]

theorem searchPat2_cons_some {c : Char} {s : Path} {x : Path × Path}
    (h : tryPat2At (c :: s) = some x) : searchPat2 (c :: s) = some x := by
  show (match tryPat2At (c :: s) with | some x => some x | none => searchPat2 s) = some x
  rw [h]

theorem searchPat1_eq_none {s : Path} (h : ∀ a t, s = a ++ t → tryPat1At t = none) :
    searchPat1 s = none := by
  induction s with
  | nil =>
    show tryPat1At [] = none
    exact h [] [] rfl
  | cons c t ih =>
    rw [searchPeel1 (h [] (c :: t) rfl)]
    exact ih (fun a u hu => h (c :: a) u (by rw [List.cons_append, ← hu]))

theorem count_tryPat1At {s : Path} (h : tryPat1At s ≠ none) : 4 ≤ s.count '/' := by
  simp only [tryPat1At] at h
  by_cases h1 : (chars "github.com/").isPrefixOf s = true
  swap
  · rw [if_neg h1] at h; exact absurd rfl h
  rw [if_pos h1] at h
  obtain ⟨rest, rfl⟩ := isPrefixOf_iff_exists.mp h1
  rw [show (chars "github.com/" ++ rest).drop 11 = rest from by
    rw [show (11 : Nat) = (chars "github.com/").length from rfl, List.drop_left]] at h
  by_cases h2 : (rest.takeWhile (fun c => c != '/')).isEmpty = true
  · rw [if_pos h2] at h; exact absurd rfl h
  rw [if_neg h2] at h
  by_cases h3 : (rest.drop (rest.takeWhile (fun c => c != '/')).length).head? = some '/'
  swap
  · rw [if_neg h3] at h; exact absurd rfl h
  rw [if_pos h3] at h
  obtain ⟨t2, ht2⟩ : ∃ t2, rest.drop (rest.takeWhile (fun c => c != '/')).length = '/' :: t2 := by
    cases hxx : rest.drop (rest.takeWhile (fun c => c != '/')).length with
    | nil => rw [hxx] at h3; simp at h3
    | cons a u =>
      rw [hxx] at h3
      simp only [List.head?] at h3
      injection h3 with h3
      exact ⟨u, by rw [h3]⟩
  rw [ht2, List.tail_cons] at h
  by_cases h4 : (t2.takeWhile (fun c => c != '/')).isEmpty = true
  · rw [if_pos h4] at h; exact absurd rfl h
  rw [if_neg h4] at h
  by_cases h5 : (chars "/tree/").isPrefixOf (t2.drop (t2.takeWhile (fun c => c != '/')).length) = true
  swap
  · rw [if_neg h5] at h; exact absurd rfl h
  obtain ⟨t3, ht3⟩ := isPrefixOf_iff_exists.mp h5
  have hrest : rest = rest.takeWhile (fun c => c != '/') ++ ('/' :: t2) := by
    rw [← ht2]; exact (takeWhile_drop_id _ _).symm
  have ht2e : t2 = t2.takeWhile (fun c => c != '/') ++ (chars "/tree/" ++ t3) := by
    rw [← ht3]; exact (takeWhile_drop_id _ _).symm
  have c0 : (rest.takeWhile (fun c => c != '/')).count '/' = 0 :=
    count_eq_zero_of_takeWhile rfl
  have c1 : (t2.takeWhile (fun c => c != '/')).count '/' = 0 :=
    count_eq_zero_of_takeWhile rfl
  have cg : (chars "github.com/").count '/' = 1 := by decide
  have ct : (chars "/tree/").count '/' = 2 := by decide
  have e1 : rest.count '/' = (rest.takeWhile (fun c => c != '/')).count '/' +
      ('/' :: t2).count '/' := by
    conv_lhs => rw [hrest]
    rw [List.count_append]
  have e2 : ('/' :: t2).count '/' = t2.count '/' + 1 := by
    rw [List.count_cons]
    simp
  have e3 : t2.count '/' = (t2.takeWhile (fun c => c != '/')).count '/' +
      (chars "/tree/" ++ t3).count '/' := by
    conv_lhs => rw [ht2e]
    rw [List.count_append]
  have e4 : (chars "/tree/" ++ t3).count '/' = 2 + t3.count '/' := by
    rw [List.count_append, ct]
  rw [List.count_append, cg]
  omega

theorem tryPat1At_compute {o r b rest : Path} (ho : o ≠ []) (ho2 : '/' ∉ o)
    (hr : r ≠ []) (hr2 : '/' ∉ r) (hb : b ≠ []) (hb2 : '/' ∉ b)
    (hrest : rest = [] ∨ ∃ t, rest = '/' :: t) :
    tryPat1At (chars "github.com/" ++ (o ++ '/' :: (r ++ (chars "/tree/" ++ (b ++ rest))))) =
      some (o, r, b) := by
  simp only [tryPat1At]
  rw [if_pos (isPrefixOf_append_self _ _)]
  have hdrop : (chars "github.com/" ++ (o ++ '/' :: (r ++ (chars "/tree/" ++ (b ++ rest))))).drop 11 =
      o ++ '/' :: (r ++ (chars "/tree/" ++ (b ++ rest))) := by
    rw [show (11 : Nat) = (chars "github.com/").length from rfl, List.drop_left]
  rw [hdrop]
  have howner : (o ++ '/' :: (r ++ (chars "/tree/" ++ (b ++ rest)))).takeWhile
      (fun c => c != '/') = o :=
    takeWhile_run ho2 (Or.inr ⟨_, rfl⟩)
  rw [howner]
  rw [if_neg (by rw [isEmpty_false_of_ne ho]; simp)]
  have hdrop2 : (o ++ '/' :: (r ++ (chars "/tree/" ++ (b ++ rest)))).drop o.length =
      '/' :: (r ++ (chars "/tree/" ++ (b ++ rest))) := List.drop_left o _
  rw [hdrop2]
  rw [if_pos (show ('/' :: (r ++ (chars "/tree/" ++ (b ++ rest)))).head? = some '/' from rfl)]
  rw [List.tail_cons]
  have hrepo : (r ++ (chars "/tree/" ++ (b ++ rest))).takeWhile (fun c => c != '/') = r :=
    takeWhile_run hr2 (Or.inr ⟨_, rfl⟩)
  rw [hrepo]
  rw [if_neg (by rw [isEmpty_false_of_ne hr]; simp)]
  have hdrop3 : (r ++ (chars "/tree/" ++ (b ++ rest))).drop r.length =
      chars "/tree/" ++ (b ++ rest) := List.drop_left r _
  rw [hdrop3]
  rw [if_pos (isPrefixOf_append_self _ _)]
  have hdrop6 : (chars "/tree/" ++ (b ++ rest)).drop 6 = b ++ rest := by
    rw [show (6 : Nat) = (chars "/tree/").length from rfl, List.drop_left]
  rw [hdrop6]
  have hbr : (b ++ rest).takeWhile (fun c => c != '/') = b := takeWhile_run hb2 hrest
  rw [hbr]
  rw [if_neg (by rw [isEmpty_false_of_ne hb]; simp)]


theorem tryPat2At_compute {o T : Path} (ho : o ≠ []) (ho2 : '/' ∉ o)
    (hT : T.takeWhile (fun c => c != '/') ≠ []) :
    ∃ rr, tryPat2At (chars "github.com/" ++ (o ++ '/' :: T)) = some (o, rr) := by
  simp only [tryPat2At]
  rw [if_pos (isPrefixOf_append_self _ _)]
  have hdrop : (chars "github.com/" ++ (o ++ '/' :: T)).drop 11 = o ++ '/' :: T := by
    rw [show (11 : Nat) = (chars "github.com/").length from rfl, List.drop_left]
  rw [hdrop]
  have howner : (o ++ '/' :: T).takeWhile (fun c => c != '/') = o :=
    takeWhile_run ho2 (Or.inr ⟨_, rfl⟩)
  rw [howner]
  rw [if_neg (by rw [isEmpty_false_of_ne ho]; simp)]
  have hdrop2 : (o ++ '/' :: T).drop o.length = '/' :: T := List.drop_left o _
  rw [hdrop2]
  rw [if_pos (show ('/' :: T).head? = some '/' from rfl)]
  rw [List.tail_cons]
  rw [if_neg (by rw [isEmpty_false_of_ne hT]; simp)]
  by_cases hgit : 5 ≤ (T.takeWhile (fun c => c != '/')).length ∧
      (chars ".git").isSuffixOf (T.takeWhile (fun c => c != '/')) = true
  · rw [if_pos hgit]
    exact ⟨_, rfl⟩
  · rw [if_neg hgit]
    exact ⟨_, rfl⟩

theorem searchPat1_https (m : Path) : searchPat1 (chars "https://" ++ m) = searchPat1 m := by
  show searchPat1 ('h' :: 't' :: 't' :: 'p' :: 's' :: ':' :: '/' :: '/' :: m) = searchPat1 m
  rw [searchPeel1 (tryPat1At_cons_ne (by decide)), searchPeel1 (tryPat1At_cons_ne (by decide)),
    searchPeel1 (tryPat1At_cons_ne (by decide)), searchPeel1 (tryPat1At_cons_ne (by decide)),
    searchPeel1 (tryPat1At_cons_ne (by decide)), searchPeel1 (tryPat1At_cons_ne (by decide)),
    searchPeel1 (tryPat1At_cons_ne (by decide)), searchPeel1 (tryPat1At_cons_ne (by decide))]

theorem searchPat2_https (m : Path) : searchPat2 (chars "https://" ++ m) = searchPat2 m := by
  show searchPat2 ('h' :: 't' :: 't' :: 'p' :: 's' :: ':' :: '/' :: '/' :: m) = searchPat2 m
  rw [searchPeel2 (tryPat2At_cons_ne (by decide)), searchPeel2 (tryPat2At_cons_ne (by decide)),
    searchPeel2 (tryPat2At_cons_ne (by decide)), searchPeel2 (tryPat2At_cons_ne (by decide)),
    searchPeel2 (tryPat2At_cons_ne (by decide)), searchPeel2 (tryPat2At_cons_ne (by decide)),
    searchPeel2 (tryPat2At_cons_ne (by decide)), searchPeel2 (tryPat2At_cons_ne (by decide))]

theorem searchPat1_none_of_low_count {M : Path} (hM : M.count '/' ≤ 3) :
    searchPat1 (chars "https://" ++ M) = none := by
  apply searchPat1_eq_none
  intro a t hat
  rcases List.append_eq_append_iff.mp hat.symm with ⟨a1, ha1, ha2⟩ | ⟨c1, hc1, hc2⟩
  · subst ha2
    have hmem : a1 ∈ (chars "https://").tails := by
      rw [List.mem_tails]
      exact ⟨a, ha1.symm⟩
    rw [show (chars "https://").tails = [chars "https://", chars "ttps://", chars "tps://",
      chars "ps://", chars "s://", chars "://", chars "//", chars "/", ([] : Path)]
      from by decide] at hmem
    fin_cases hmem
    · exact tryPat1At_cons_ne (by decide)
    · exact tryPat1At_cons_ne (by decide)
    · exact tryPat1At_cons_ne (by decide)
    · exact tryPat1At_cons_ne (by decide)
    · exact tryPat1At_cons_ne (by decide)
    · exact tryPat1At_cons_ne (by decide)
    · exact tryPat1At_cons_ne (by decide)
    · exact tryPat1At_cons_ne (by decide)
    · by_contra hne
      have h4 := count_tryPat1At (by simpa using hne)
      simp at h4
      omega
  · by_contra hne
    have h4 := count_tryPat1At hne
    have hle : t.count '/' ≤ M.count '/' := by
      rw [hc2, List.count_append]
      omega
    omega

theorem tryBaseAt_props {s : Path} {o r : Path} (h : tryBaseAt s = some (o, r)) :
    o ≠ [] ∧ '/' ∉ o ∧ r ≠ [] ∧ '/' ∉ r := by
  simp only [tryBaseAt] at h
  split at h
  · exact absurd h (by simp)
  · rename_i rest hrest
    by_cases h2 : (rest.takeWhile (fun c => c != '/')).isEmpty = true
    · rw [if_pos h2] at h; exact absurd h (by simp)
    rw [if_neg h2] at h
    by_cases h3 : (rest.drop (rest.takeWhile (fun c => c != '/')).length).head? = some '/'
    swap
    · rw [if_neg h3] at h; exact absurd h (by simp)
    rw [if_pos h3] at h
    by_cases h4 : ((rest.drop (rest.takeWhile (fun c => c != '/')).length).tail.takeWhile
        (fun c => c != '/')).isEmpty = true
    · rw [if_pos h4] at h; exact absurd h (by simp)
    rw [if_neg h4] at h
    injection h with h
    have ho := congrArg Prod.fst h
    have hr := congrArg Prod.snd h
    simp only at ho hr
    refine ⟨?_, ?_, ?_, ?_⟩
    · rw [← ho]
      intro heq
      rw [heq] at h2
      exact h2 rfl
    · rw [← ho]
      intro hm
      have := List.mem_takeWhile_imp hm
      simp at this
    · rw [← hr]
      intro heq
      rw [heq] at h4
      exact h4 rfl
    · rw [← hr]
      intro hm
      have := List.mem_takeWhile_imp hm
      simp at this

theorem searchGithubBase_props {s : Path} {o r : Path}
    (h : searchGithubBase s = some (o, r)) : o ≠ [] ∧ '/' ∉ o ∧ r ≠ [] ∧ '/' ∉ r := by
  induction s with
  | nil => exact tryBaseAt_props h
  | cons c t ih =>
    rw [show searchGithubBase (c :: t) =
        (match tryBaseAt (c :: t) with
         | some x => some x
         | none => searchGithubBase t) from rfl] at h
    cases hb : tryBaseAt (c :: t) with
    | some x =>
      rw [hb] at h
      cases x with
      | mk xo xr =>
        injection h with h
        injection h with h1 h2
        subst h1
        subst h2
        exact tryBaseAt_props hb
    | none =>
      rw [hb] at h
      exact ih h

theorem parse_github_url_tree {o r b rest : Path} (ho : o ≠ []) (ho2 : '/' ∉ o)
    (hr : r ≠ []) (hr2 : '/' ∉ r) (hb : b ≠ []) (hb2 : '/' ∉ b)
    (hrest : rest = [] ∨ ∃ t, rest = '/' :: t) :
    parse_github_url (chars "https://" ++ (chars "github.com/" ++
      (o ++ '/' :: (r ++ (chars "/tree/" ++ (b ++ rest)))))) = some (o, replaceGit r, b) := by
  have hs1 : searchPat1 (chars "https://" ++ (chars "github.com/" ++
      (o ++ '/' :: (r ++ (chars "/tree/" ++ (b ++ rest)))))) = some (o, r, b) := by
    rw [searchPat1_https]
    exact searchPat1_cons_some (tryPat1At_compute ho ho2 hr hr2 hb hb2 hrest)
  have hcontains : containsSub (chars "https://" ++ (chars "github.com/" ++
      (o ++ '/' :: (r ++ (chars "/tree/" ++ (b ++ rest)))))) (chars "github.com") = true := by
    apply containsSub_iff.mpr
    refine ⟨chars "https://", '/' :: (o ++ '/' :: (r ++ (chars "/tree/" ++ (b ++ rest)))), ?_⟩
    rw [show chars "github.com/" = chars "github.com" ++ ['/'] from rfl]
    simp
  simp only [parse_github_url]
  rw [if_neg (by
    rw [hcontains]
    rw [show (chars "https://" ++ (chars "github.com/" ++
      (o ++ '/' :: (r ++ (chars "/tree/" ++ (b ++ rest)))))).isEmpty = false from rfl]
    simp)]
  rw [hs1]

theorem parse_github_url_main {o r ext : Path} (ho : o ≠ []) (ho2 : '/' ∉ o)
    (hr : r ≠ []) (hr2 : '/' ∉ r)
    (hext : ext = [] ∨ ext = chars ".git" ∨ ext = chars "/") :
    (parse_github_url (chars "https://" ++ (chars "github.com/" ++
      (o ++ '/' :: (r ++ ext))))).map (fun x => x.2.2) = some (chars "main") := by
  have hcount : (chars "github.com/" ++ (o ++ '/' :: (r ++ ext))).count '/' ≤ 3 := by
    have c1 : o.count '/' = 0 := List.count_eq_zero.mpr ho2
    have c2 : r.count '/' = 0 := List.count_eq_zero.mpr hr2
    have c3 : ext.count '/' ≤ 1 := by
      rcases hext with rfl | rfl | rfl
      · simp
      · decide
      · decide
    have cg : (chars "github.com/").count '/' = 1 := by decide
    rw [List.count_append, cg, List.count_append, c1, List.count_cons, List.count_append, c2]
    simp
    omega
  have hs1 := searchPat1_none_of_low_count hcount
  have hT : (r ++ ext).takeWhile (fun c => c != '/') ≠ [] := by
    rcases hext with rfl | rfl | rfl
    · rw [takeWhile_run hr2 (Or.inl rfl)]
      exact hr
    · rw [takeWhile_app_all (neSlash_of_not_mem hr2) _]
      rw [show (chars ".git").takeWhile (fun c => c != '/') = chars ".git" from by decide]
      exact fun heq => hr (List.append_eq_nil.mp heq).1
    · rw [show (chars "/" : Path) = ['/'] from rfl, takeWhile_run hr2 (Or.inr ⟨[], rfl⟩)]
      exact hr
  obtain ⟨rr, hs2⟩ := tryPat2At_compute ho ho2 hT
  have hs2b : searchPat2 (chars "https://" ++ (chars "github.com/" ++
      (o ++ '/' :: (r ++ ext)))) = some (o, rr) := by
    rw [searchPat2_https]
    exact searchPat2_cons_some hs2
  have hcontains : containsSub (chars "https://" ++ (chars "github.com/" ++
      (o ++ '/' :: (r ++ ext)))) (chars "github.com") = true := by
    apply containsSub_iff.mpr
    refine ⟨chars "https://", '/' :: (o ++ '/' :: (r ++ ext)), ?_⟩
    rw [show chars "github.com/" = chars "github.com" ++ ['/'] from rfl]
    simp
  simp only [parse_github_url]
  rw [if_neg (by
    rw [hcontains]
    rw [show (chars "https://" ++ (chars "github.com/" ++
      (o ++ '/' :: (r ++ ext)))).isEmpty = false from rfl]
    simp)]
  rw [hs1, hs2b]
  rfl

/-! ## Aggregator lemmas -/


theorem lookup_write_ne {fs : FS} {n n' : Path} {c : CacheText} {t : Int} (h : n ≠ n') :
    (FS.write fs n c t).lookup n' = fs.lookup n' := by
  induction fs with
  | nil => simp [FS.write, FS.lookup, h]
  | cons e rest ih =>
    obtain ⟨m, c0, t0⟩ := e
    by_cases hm : m = n
    · subst hm
      simp only [FS.write, if_pos rfl, FS.lookup]
      rw [if_neg h, if_neg h]
    · simp only [FS.write, if_neg hm, FS.lookup]
      by_cases hm' : m = n'
      · rw [if_pos hm', if_pos hm']
      · rw [if_neg hm', if_neg hm', ih]

theorem dl_fail {o : DLOutcome} (h : o.succeeds = false) (fs : FS) (n : Path) (now : Int) :
    download_marketplace o fs n now = (false, fs) := by
  cases o <;> first | rfl | simp [DLOutcome.succeeds] at h

theorem loadCache_fs {fs fs' : FS} {mn : Path} {l : List PluginRec}
    (h : loadCache fs mn = some (fs', l)) : fs' = fs := by
  unfold loadCache at h
  split at h
  · injection h with h; exact (congrArg Prod.fst h).symm
  · injection h with h; exact (congrArg Prod.fst h).symm
  · exact absurd h (by simp)
  · injection h with h; exact (congrArg Prod.fst h).symm

theorem loadCache_origin {fs fs' : FS} {mn : Path} {l : List PluginRec}
    (h : loadCache fs mn = some (fs', l)) : ∀ p ∈ l, p.marketplace = mn := by
  unfold loadCache at h
  split at h
  · injection h with h
    intro p hp
    rw [show l = [] from (congrArg Prod.snd h).symm] at hp
    exact absurd hp (List.not_mem_nil p)
  · injection h with h
    intro p hp
    rw [show l = [] from (congrArg Prod.snd h).symm] at hp
    exact absurd hp (List.not_mem_nil p)
  · exact absurd h (by simp)
  · injection h with h
    rename_i d t hd
    intro p hp
    rw [show l = tagPlugins d mn from (congrArg Prod.snd h).symm] at hp
    simp only [tagPlugins, List.mem_map] at hp
    obtain ⟨rp, -, hrp⟩ := hp
    rw [← hrp]

theorem processOne_preserves {fs fs' : FS} {m : Marketplace} {o : DLOutcome} {now : Int}
    {l : List PluginRec} (h : processOne fs m o now = some (fs', l)) :
    ∀ n, m.name ≠ n → fs'.lookup n = fs.lookup n := by
  intro n hn
  unfold processOne at h
  split at h
  · split at h
    · rename_i fs1 heq
      cases o with
      | contentValid j =>
        rw [loadCache_fs h,
          show fs1 = fs.write m.name (.obj j) now from (congrArg Prod.snd heq).symm,
          lookup_write_ne hn]
      | contentValidNonObj =>
        rw [loadCache_fs h,
          show fs1 = fs.write m.name .nonObj now from (congrArg Prod.snd heq).symm,
          lookup_write_ne hn]
      | badUrl => exact absurd (congrArg Prod.fst heq) Bool.false_ne_true
      | curlErr => exact absurd (congrArg Prod.fst heq) Bool.false_ne_true
      | timeout => exact absurd (congrArg Prod.fst heq) Bool.false_ne_true
      | curlMissing => exact absurd (congrArg Prod.fst heq) Bool.false_ne_true
      | apiNotJson => exact absurd (congrArg Prod.fst heq) Bool.false_ne_true
      | apiNoContent => exact absurd (congrArg Prod.fst heq) Bool.false_ne_true
      | decodeErr => exact absurd (congrArg Prod.fst heq) Bool.false_ne_true
      | contentInvalid => exact absurd (congrArg Prod.fst heq) Bool.false_ne_true
    · rename_i fs1 heq
      have hfs1 : fs1 = fs := by
        cases o with
        | contentValid j => exact absurd (congrArg Prod.fst heq).symm Bool.false_ne_true
        | contentValidNonObj => exact absurd (congrArg Prod.fst heq).symm Bool.false_ne_true
        | badUrl => exact (congrArg Prod.snd heq).symm
        | curlErr => exact (congrArg Prod.snd heq).symm
        | timeout => exact (congrArg Prod.snd heq).symm
        | curlMissing => exact (congrArg Prod.snd heq).symm
        | apiNotJson => exact (congrArg Prod.snd heq).symm
        | apiNoContent => exact (congrArg Prod.snd heq).symm
        | decodeErr => exact (congrArg Prod.snd heq).symm
        | contentInvalid => exact (congrArg Prod.snd heq).symm
      rw [hfs1] at h
      split at h
      · rw [loadCache_fs h]
      · injection h with h
        rw [show fs' = fs from (congrArg Prod.fst h).symm]
  · rw [loadCache_fs h]

theorem processOne_origin {fs fs' : FS} {m : Marketplace} {o : DLOutcome} {now : Int}
    {l : List PluginRec} (h : processOne fs m o now = some (fs', l)) :
    ∀ p ∈ l, p.marketplace = m.name := by
  unfold processOne at h
  split at h
  · split at h
    · exact loadCache_origin h
    · split at h
      · exact loadCache_origin h
      · injection h with h
        intro p hp
        rw [show l = [] from (congrArg Prod.snd h).symm] at hp
        exact absurd hp (List.not_mem_nil p)
  · exact loadCache_origin h

theorem ensureLoop_cons_bind (oracle : Nat → DLOutcome) (now : Int) (m : Marketplace)
    (rest : List Marketplace) (i : Nat) (fs : FS) :
    ensureLoop oracle now (m :: rest) i fs =
      (processOne fs m (oracle i) now).bind (fun r =>
        (ensureLoop oracle now rest (i + 1) r.1).map (fun q => (q.1, r.2 ++ q.2))) := by
  cases hp : processOne fs m (oracle i) now with
  | none =>
    show (match processOne fs m (oracle i) now with
      | none => none
      | some (fs1, contrib) =>
        match ensureLoop oracle now rest (i + 1) fs1 with
        | none => none
        | some (fsf, ps) => some (fsf, contrib ++ ps)) = _
    rw [hp]
    rfl
  | some r =>
    obtain ⟨fs1, contrib⟩ := r
    show (match processOne fs m (oracle i) now with
      | none => none
      | some (fs1, contrib) =>
        match ensureLoop oracle now rest (i + 1) fs1 with
        | none => none
        | some (fsf, ps) => some (fsf, contrib ++ ps)) = _
    rw [hp]
    cases hr : ensureLoop oracle now rest (i + 1) fs1 with
    | none => simp [hr]
    | some q =>
      obtain ⟨fsf, ps⟩ := q
      simp [hr]

theorem ensureLoop_preserves {oracle : Nat → DLOutcome} {now : Int}
    {config : List Marketplace} {n : Path} (hn : ∀ m ∈ config, m.name ≠ n) :
    ∀ (i : Nat) (fs fsf : FS) (ps : List PluginRec),
      ensureLoop oracle now config i fs = some (fsf, ps) → fsf.lookup n = fs.lookup n := by
  induction config with
  | nil =>
    intro i fs fsf ps h
    replace h : (some (fs, ([] : List PluginRec)) : Option (FS × List PluginRec)) =
      some (fsf, ps) := h
    injection h with h
    rw [show fsf = fs from (congrArg Prod.fst h).symm]
  | cons m rest ih =>
    intro i fs fsf ps h
    rw [ensureLoop_cons_bind] at h
    cases hp : processOne fs m (oracle i) now with
    | none => rw [hp] at h; simp at h
    | some r =>
      obtain ⟨fs1, contrib⟩ := r
      rw [hp] at h
      simp only [Option.some_bind] at h
      cases hr : ensureLoop oracle now rest (i + 1) fs1 with
      | none => rw [hr] at h; simp at h
      | some q =>
        obtain ⟨fsf2, ps2⟩ := q
        rw [hr] at h
        simp only [Option.map_some'] at h
        injection h with h
        rw [show fsf = fsf2 from (congrArg Prod.fst h).symm]
        rw [ih (fun mm hm => hn mm (by simp [hm])) (i + 1) fs1 fsf2 ps2 hr]
        exact processOne_preserves hp n (hn m (by simp))

theorem ensureLoop_origin {oracle : Nat → DLOutcome} {now : Int} {config : List Marketplace} :
    ∀ (i : Nat) (fs fsf : FS) (ps : List PluginRec),
      ensureLoop oracle now config i fs = some (fsf, ps) →
      ∀ p ∈ ps, ∃ m ∈ config, p.marketplace = m.name := by
  induction config with
  | nil =>
    intro i fs fsf ps h
    replace h : (some (fs, ([] : List PluginRec)) : Option (FS × List PluginRec)) =
      some (fsf, ps) := h
    injection h with h
    intro p hp
    rw [show ps = [] from (congrArg Prod.snd h).symm] at hp
    exact absurd hp (List.not_mem_nil p)
  | cons m rest ih =>
    intro i fs fsf ps h
    rw [ensureLoop_cons_bind] at h
    cases hp : processOne fs m (oracle i) now with
    | none => rw [hp] at h; simp at h
    | some r =>
      obtain ⟨fs1, contrib⟩ := r
      rw [hp] at h
      simp only [Option.some_bind] at h
      cases hr : ensureLoop oracle now rest (i + 1) fs1 with
      | none => rw [hr] at h; simp at h
      | some q =>
        obtain ⟨fsf2, ps2⟩ := q
        rw [hr] at h
        simp only [Option.map_some'] at h
        injection h with h
        intro p hp2
        rw [show ps = contrib ++ ps2 from (congrArg Prod.snd h).symm] at hp2
        rcases List.mem_append.mp hp2 with hc | hc
        · exact ⟨m, by simp, processOne_origin hp p hc⟩
        · obtain ⟨mm, hmm, he⟩ := ih (i + 1) fs1 fsf2 ps2 hr p hc
          exact ⟨mm, by simp [hmm], he⟩

theorem ensureLoop_append (oracle : Nat → DLOutcome) (now : Int) (A B : List Marketplace) :
    ∀ (i : Nat) (fs : FS),
      ensureLoop oracle now (A ++ B) i fs =
        (ensureLoop oracle now A i fs).bind (fun r =>
          (ensureLoop oracle now B (i + A.length) r.1).map (fun q => (q.1, r.2 ++ q.2))) := by
  induction A with
  | nil =>
    intro i fs
    show ensureLoop oracle now B i fs =
      (some (fs, ([] : List PluginRec))).bind _
    simp only [Option.some_bind, List.length_nil, Nat.add_zero, List.nil_append]
    cases hB : ensureLoop oracle now B i fs with
    | none => rfl
    | some q => simp
  | cons m A' ih =>
    intro i fs
    rw [show (m :: A') ++ B = m :: (A' ++ B) from rfl, ensureLoop_cons_bind,
      ensureLoop_cons_bind]
    simp only [List.length_cons]
    cases hp : processOne fs m (oracle i) now with
    | none => simp
    | some r =>
      obtain ⟨fs1, contrib⟩ := r
      simp only [Option.some_bind]
      rw [ih (i + 1) fs1]
      rw [show (i + 1) + A'.length = i + (A'.length + 1) from by omega]
      cases hA : ensureLoop oracle now A' (i + 1) fs1 with
      | none => simp
      | some r2 =>
        obtain ⟨fs2, ps2⟩ := r2
        simp only [Option.some_bind, Option.map_some']
        cases hB : ensureLoop oracle now B (i + (A'.length + 1)) fs2 with
        | none => simp
        | some q =>
          obtain ⟨fsf, qs⟩ := q
          simp [List.append_assoc]

theorem ensureLoop_congr {o1 o2 : Nat → DLOutcome} {now : Int} {config : List Marketplace} :
    ∀ (i j : Nat) (fs : FS), (∀ k, k < config.length → o1 (i + k) = o2 (j + k)) →
      ensureLoop o1 now config i fs = ensureLoop o2 now config j fs := by
  induction config with
  | nil => intro i j fs h; rfl
  | cons m rest ih =>
    intro i j fs h
    rw [ensureLoop_cons_bind, ensureLoop_cons_bind]
    rw [show o1 i = o2 j from by simpa using h 0 (by simp)]
    have hin : ∀ fs', ensureLoop o1 now rest (i + 1) fs' = ensureLoop o2 now rest (j + 1) fs' := by
      intro fs'
      apply ih
      intro k hk
      have := h (k + 1) (by simp; omega)
      rw [show i + (k + 1) = (i + 1) + k from by omega,
        show j + (k + 1) = (j + 1) + k from by omega] at this
      exact this
    simp only [hin]

theorem existsFile_false_lookup {fs : FS} {n : Path} (h : fs.existsFile n = false) :
    fs.lookup n = none := by
  cases hl : fs.lookup n with
  | none => rfl
  | some v =>
    rw [FS.existsFile, hl] at h
    simp at h

theorem processOne_fallback {fs : FS} {m : Marketplace} {o : DLOutcome} {now : Int}
    (hfail : o.succeeds = false)
    (hstale : needs_update (fs.mtime m.name) now CACHE_DURATION = true)
    (hex : fs.existsFile m.name = true) :
    processOne fs m o now = loadCache fs m.name := by
  unfold processOne
  rw [if_pos hstale, dl_fail hfail]
  show (if fs.existsFile m.name = true then loadCache fs m.name else some (fs, [])) =
    loadCache fs m.name
  rw [if_pos hex]

theorem processOne_skip {fs : FS} {m : Marketplace} {o : DLOutcome} {now : Int}
    (hfail : o.succeeds = false) (hex : fs.existsFile m.name = false) :
    processOne fs m o now = some (fs, []) := by
  have hstale : needs_update (fs.mtime m.name) now CACHE_DURATION = true := by
    rw [FS.mtime, existsFile_false_lookup hex]
    rfl
  unfold processOne
  rw [if_pos hstale, dl_fail hfail]
  show (if fs.existsFile m.name = true then loadCache fs m.name else some (fs, [])) =
    some (fs, [])
  rw [if_neg (by rw [hex]; simp)]

/-! ## Claim theorems -/

/-- **C1** (amended).  For every recursive tree listing and non-empty
sub-path `P` (written without a trailing slash, so that the code's
`rstrip('/') + '/'` normalisation coincides with `P + "/"`), the tree
analysis classifies entries relative to `P + "/"`: an entry contributes a
command `c` iff its path is `P + "/commands/" + c` with `c` a single
non-empty slash-free segment and the entry a blob (nested files
excluded); an entry contributes a skill `s` iff `s` is non-empty and the
entry's path is `P + "/skills/" + s + "/SKILL.md"` (the skill is its
containing directory, duplicates collapse by the membership statement;
the non-emptiness condition is the amendment: a `SKILL.md` directly
inside `skills/` is not counted).  Both lists are sorted
lexicographically, and the spec's example evaluates as stated. -/
theorem c1_tree_classification :
    (treeAnalysis
        [⟨chars "plugins/foo/commands/build.md", chars "blob"⟩,
         ⟨chars "plugins/foo/commands/nested/x.md", chars "blob"⟩,
         ⟨chars "plugins/foo/skills/a/SKILL.md", chars "blob"⟩]
        (chars "plugins/foo") =
      ⟨[chars "build.md"], [chars "a"], false⟩) ∧
    ∀ (tree : List TreeEntry) (P : Path), P ≠ [] → P.getLast? ≠ some '/' →
      ((∀ c, c ∈ (treeAnalysis tree P).commands ↔
          ∃ item ∈ tree, item.path = (P ++ ['/']) ++ chars "commands/" ++ c ∧
            c ≠ [] ∧ c.contains '/' = false ∧ item.type = chars "blob") ∧
       (∀ s, s ∈ (treeAnalysis tree P).skills ↔
          s ≠ [] ∧ ∃ item ∈ tree,
            item.path = (P ++ ['/']) ++ chars "skills/" ++ (s ++ chars "/SKILL.md")) ∧
       (treeAnalysis tree P).commands.Pairwise (fun a b => pathLe a b = true) ∧
       (treeAnalysis tree P).skills.Pairwise (fun a b => pathLe a b = true)) := by
  constructor
  · decide
  · intro tree P hP hPs
    have hpfx : pluginPfx P = P ++ ['/'] := pluginPfx_eq hP hPs
    refine ⟨?_, ?_, ?_, ?_⟩
    · intro c
      simp only [treeAnalysis, mem_sortPaths, analyzeLoop_commands_mem, hpfx,
        commandOf_eq_some_iff, List.not_mem_nil, false_or]
    · intro s
      simp only [treeAnalysis, mem_sortPaths, analyzeLoop_skills_mem, hpfx,
        skillOf_eq_some_iff, List.not_mem_nil, false_or]
      constructor
      · rintro ⟨it, hit, hne, hp⟩
        exact ⟨hne, it, hit, hp⟩
      · rintro ⟨hne, it, hit, hp⟩
        exact ⟨it, hit, hne, hp⟩
    · exact pairwise_sortPaths _
    · exact pairwise_sortPaths _

/-- **C1** witness: the general classification applied to a concrete tree
and sub-path, with the hypotheses discharged at `"plugins/foo"`. -/
theorem c1_tree_classification_witness :
    chars "build.md" ∈
        (treeAnalysis [⟨chars "plugins/foo/commands/build.md", chars "blob"⟩]
          (chars "plugins/foo")).commands ↔
      ∃ item ∈ ([⟨chars "plugins/foo/commands/build.md", chars "blob"⟩] : List TreeEntry),
        item.path = (chars "plugins/foo" ++ ['/']) ++ chars "commands/" ++ chars "build.md" ∧
          chars "build.md" ≠ [] ∧ (chars "build.md").contains '/' = false ∧
          item.type = chars "blob" :=
  ((c1_tree_classification.2 [⟨chars "plugins/foo/commands/build.md", chars "blob"⟩]
    (chars "plugins/foo") (by decide) (by decide)).1) (chars "build.md")

/-- **C1** counterexample to the claim as stated: the entry
`plugins/foo/skills/SKILL.md` has prefix-stripped path
`skills/SKILL.md`, which lies under `skills/` and whose final segment is
`SKILL.md`, so the claim's iff makes it a skill; yet the code reports no
skill for it (the containing directory is empty and the truthiness test
`if skill_path` drops it, line 374). -/
theorem c1_skill_at_root_counterexample :
    (treeAnalysis [⟨chars "plugins/foo/skills/SKILL.md", chars "blob"⟩]
        (chars "plugins/foo")).skills = [] ∧
    (chars "skills/").isPrefixOf (chars "skills/SKILL.md") = true ∧
    (splitSlash ((chars "skills/SKILL.md").drop 7)).getLast? = some (chars "SKILL.md") ∧
    chars "plugins/foo/skills/SKILL.md" =
      (chars "plugins/foo" ++ ['/']) ++ chars "skills/SKILL.md" := by
  decide


/-- **C2** (amended).  For every declared source string beginning with
`./` or `../` whose owning marketplace's `base_url` matches the
hostname-aware pattern (extracting `owner`/`repo`), resolution yields
the reference `(owner, repo, "main")` — with every `".git"` occurrence
removed from the extracted repo by `parse_github_url` — and uses as
sub-path the source with ALL leading `'.'` and `'/'` characters
stripped (Python's `lstrip('./')`), which equals the claim's
"remainder after the prefix" exactly when no further dots or slashes
follow the prefix, as in `./plugins/foo`. -/
theorem c2_relative_source_resolution :
    ∀ (s base hp o r : Path),
      ((chars "./").isPrefixOf s = true ∨ (chars "../").isPrefixOf s = true) →
      searchGithubBase base = some (o, r) →
      resolveSource (.str s) base hp =
        (some (o, replaceGit r, chars "main"),
         some (s.dropWhile (fun c => c == '.' || c == '/'))) := by
  intro s base hp o r hpre hbase
  obtain ⟨ho, ho2, hr, hr2⟩ := searchGithubBase_props hbase
  have hstep : resolveSource (.str s) base hp =
      (parse_github_url (chars "https://github.com/" ++ o ++ chars "/" ++ r ++
        chars "/tree/main/" ++ s.dropWhile (fun c => c == '.' || c == '/')),
       some (s.dropWhile (fun c => c == '.' || c == '/'))) := by
    simp only [resolveSource]
    rw [if_pos (show ((chars "./").isPrefixOf s || (chars "../").isPrefixOf s) = true from by
      rcases hpre with h | h <;> simp [h]), hbase]
  rw [hstep]
  have hassoc : chars "https://github.com/" ++ o ++ chars "/" ++ r ++
      chars "/tree/main/" ++ s.dropWhile (fun c => c == '.' || c == '/') =
      chars "https://" ++ (chars "github.com/" ++ (o ++ '/' :: (r ++ (chars "/tree/" ++
        (chars "main" ++ ('/' :: s.dropWhile (fun c => c == '.' || c == '/'))))))) := by
    rw [show chars "https://github.com/" = chars "https://" ++ chars "github.com/" from rfl,
      show chars "/tree/main/" = chars "/tree/" ++ (chars "main" ++ ['/']) from rfl,
      show (chars "/" : Path) = ['/'] from rfl]
    simp
  rw [hassoc, parse_github_url_tree ho ho2 hr hr2 (by decide) (by decide)
    (Or.inr ⟨s.dropWhile (fun c => c == '.' || c == '/'), rfl⟩)]

/-- **C2** witness: the spec's own example, `./plugins/foo` under
`https://github.com/acme/widgets`, resolved by applying the general
theorem and evaluating. -/
theorem c2_relative_source_resolution_witness :
    resolveSource (.str (chars "./plugins/foo")) (chars "https://github.com/acme/widgets")
        (chars "N/A") =
      (some (chars "acme", chars "widgets", chars "main"), some (chars "plugins/foo")) :=
  (c2_relative_source_resolution (chars "./plugins/foo")
    (chars "https://github.com/acme/widgets") (chars "N/A") (chars "acme") (chars "widgets")
    (Or.inl (by decide)) (by decide)).trans (by decide)

/-- **C2** counterexample to the claim as stated: for source `./.foo`
under base `https://github.com/acme/widgets.git`, the claim predicts
sub-path `.foo` (strip the `./` prefix, keep the remainder) and repo
`widgets.git` (the `/owner/repo` match), but the code produces sub-path
`foo` (`lstrip('./')` strips all leading dots and slashes) and repo
`widgets` (`.replace('.git','')`). -/
theorem c2_lstrip_counterexample :
    resolveSource (.str (chars "./.foo")) (chars "https://github.com/acme/widgets.git")
        (chars "N/A") =
      (some (chars "acme", chars "widgets", chars "main"), some (chars "foo")) ∧
    chars "foo" ≠ chars ".foo" ∧ chars "widgets" ≠ chars "widgets.git" := by
  decide

/-- **C3** (confirmed).  A structured url-kind source descriptor is
resolved by parsing its URL directly and the sub-path is always the
empty string, regardless of any trailing path in the URL; a URL of
shape `host/owner/repo/tree/branch[/...]` yields the explicit branch, a
URL of shape `host/owner/repo` with optional trailing `.git` or `/`
yields branch `main`; and the spec's example
`https://github.com/acme/widgets/tree/dev/sub` resolves to
`(acme, widgets, dev)` with sub-path `""`. -/
theorem c3_url_source_resolution :
    (∀ (u base hp : Path), resolveSource (.urlDict u) base hp = (parse_github_url u, some [])) ∧
    (∀ (o r b rest : Path), o ≠ [] → '/' ∉ o → r ≠ [] → '/' ∉ r → b ≠ [] → '/' ∉ b →
      (rest = [] ∨ ∃ t, rest = '/' :: t) →
      (parse_github_url (chars "https://" ++ (chars "github.com/" ++
        (o ++ '/' :: (r ++ (chars "/tree/" ++ (b ++ rest))))))).map (fun x => x.2.2) = some b) ∧
    (∀ (o r ext : Path), o ≠ [] → '/' ∉ o → r ≠ [] → '/' ∉ r →
      (ext = [] ∨ ext = chars ".git" ∨ ext = chars "/") →
      (parse_github_url (chars "https://" ++ (chars "github.com/" ++
        (o ++ '/' :: (r ++ ext))))).map (fun x => x.2.2) = some (chars "main")) ∧
    resolveSource (.urlDict (chars "https://github.com/acme/widgets/tree/dev/sub")) (chars "x")
        (chars "y") = (some (chars "acme", chars "widgets", chars "dev"), some []) := by
  refine ⟨fun u base hp => rfl, ?_, ?_, by decide⟩
  · intro o r b rest ho ho2 hr hr2 hb hb2 hrest
    rw [parse_github_url_tree ho ho2 hr hr2 hb hb2 hrest]
    rfl
  · intro o r ext ho ho2 hr hr2 hext
    exact parse_github_url_main ho ho2 hr hr2 hext

/-- **C3** witness: the branch-shape clause applied at
`https://github.com/acme/widgets/tree/dev/sub`, hypotheses discharged
concretely. -/
theorem c3_url_source_resolution_witness :
    (parse_github_url (chars "https://" ++ (chars "github.com/" ++
      (chars "acme" ++ '/' :: (chars "widgets" ++ (chars "/tree/" ++
        (chars "dev" ++ chars "/sub"))))))).map (fun x => x.2.2) = some (chars "dev") :=
  c3_url_source_resolution.2.1 (chars "acme") (chars "widgets") (chars "dev") (chars "/sub")
    (by decide) (by decide) (by decide) (by decide) (by decide) (by decide)
    (Or.inr ⟨chars "sub", rfl⟩)


/-- **C4** (amended).  When the tree request exits with a nonzero curl
status, or its response is received but fails to parse as JSON, the
lookup still returns a non-fatal result and the caller-side accessors
see an empty command list, an empty skill list, and a false marker
flag.  (Amendment: a tree-request timeout, unlike a nonzero exit, is
caught only by the function-level handler and makes the whole lookup
return no result at all — see the counterexample.) -/
theorem c4_tree_failure_nonfatal :
    ∀ (d : SummaryData) (tr : TreeResp) (p : Path),
      (tr = .curlErr ∨ tr = .parseErr) →
      ∃ i, fetch_github_repo_info (.ok d) tr (some p) = some i ∧
        i.commandsOrDefault = [] ∧ i.skillsOrDefault = [] ∧ i.hasMcpTruthy = false := by
  rintro d tr p (rfl | rfl) <;> exact ⟨_, rfl, rfl, rfl, rfl⟩

/-- **C4** witness: the nonzero-exit case at a concrete summary and
sub-path. -/
theorem c4_tree_failure_nonfatal_witness :
    ∃ i, fetch_github_repo_info (.ok ⟨0, none, chars "main"⟩) .curlErr (some (chars "x")) =
        some i ∧ i.commandsOrDefault = [] ∧ i.skillsOrDefault = [] ∧ i.hasMcpTruthy = false :=
  c4_tree_failure_nonfatal ⟨0, none, chars "main"⟩ .curlErr (chars "x") (Or.inl rfl)

/-- **C4** counterexample to the claim as stated: a timeout of the tree
request is a way for "the tree request itself to fail", but
`subprocess.TimeoutExpired` escapes the inner handler (line 381 catches
only JSON/Key errors) and hits the function-level handler (line 386),
so the lookup returns `None` — not a non-fatal result with empty
lists. -/
theorem c4_timeout_counterexample :
    fetch_github_repo_info (.ok ⟨0, none, chars "main"⟩) .timeout (some (chars "x")) = none :=
  rfl

/-- **C6** (confirmed).  The freshness check reports fresh iff the file
exists and `now - mtime ≤ ttl`; an age of exactly the TTL is fresh, one
second past it is stale, and a missing file is always stale. -/
theorem c6_cache_freshness :
    (∀ (m : Option Int) (now ttl : Int),
      needs_update m now ttl = false ↔ ∃ t, m = some t ∧ now - t ≤ ttl) ∧
    (∀ (t now ttl : Int), now - t = ttl → needs_update (some t) now ttl = false) ∧
    (∀ (t now ttl : Int), now - t = ttl + 1 → needs_update (some t) now ttl = true) ∧
    (∀ (now ttl : Int), needs_update none now ttl = true) := by
  refine ⟨?_, ?_, ?_, fun now ttl => rfl⟩
  · intro m now ttl
    cases m with
    | none => simp [needs_update]
    | some t =>
      simp only [needs_update, Option.some.injEq, decide_eq_false_iff_not, not_lt]
      constructor
      · intro h
        exact ⟨t, rfl, h⟩
      · rintro ⟨u, hu, h⟩
        omega
  · intro t now ttl h
    simp only [needs_update, decide_eq_false_iff_not, not_lt]
    omega
  · intro t now ttl h
    simp only [needs_update, decide_eq_true_eq]
    omega

/-- **C6** witness: a file aged exactly the default TTL is fresh. -/
theorem c6_cache_freshness_witness : needs_update (some 5) 3605 3600 = false :=
  c6_cache_freshness.2.1 5 3605 3600 (by decide)

/-- **C7** (amended).  The spec's example holds: the query
`notion linear` keeps a record whose blob contains only `linear` (OR
semantics across terms).  In general, for a non-empty query, the query
is lower-cased and split on whitespace into terms — the lower-casing of
the terms is the amendment — and a record is kept iff at least one term
is a substring of its lower-cased searchable blob. -/
theorem c7_free_text_filter :
    (search_plugins [⟨⟨chars "x", chars "uses linear sync", chars "dev", [], []⟩,
        chars "m", chars "o"⟩] (some (chars "notion linear")) none none none =
      [⟨⟨chars "x", chars "uses linear sync", chars "dev", [], []⟩, chars "m", chars "o"⟩]) ∧
    ∀ (plugins : List PluginRec) (q : Path) (p : PluginRec), q ≠ [] →
      (p ∈ search_plugins plugins (some q) none none none ↔
        p ∈ plugins ∧ ∃ t ∈ splitWs (lowerP q), occursIn t (searchableText p)) := by
  constructor
  · decide
  · intro plugins q p hq
    show p ∈ (if q.isEmpty = true then plugins
      else plugins.filter
        (fun p => (splitWs (lowerP q)).any (fun term => containsSub (searchableText p) term))) ↔ _
    rw [if_neg (by rw [isEmpty_false_of_ne hq]; simp)]
    rw [List.mem_filter]
    simp only [List.any_eq_true, containsSub_iff]

/-- **C7** witness: the general iff applied at the spec's
`notion linear` example. -/
theorem c7_free_text_filter_witness :
    ⟨⟨chars "x", chars "uses linear sync", chars "dev", [], []⟩, chars "m", chars "o"⟩ ∈
        search_plugins [⟨⟨chars "x", chars "uses linear sync", chars "dev", [], []⟩,
          chars "m", chars "o"⟩] (some (chars "notion linear")) none none none ↔
      ⟨⟨chars "x", chars "uses linear sync", chars "dev", [], []⟩, chars "m", chars "o"⟩ ∈
          [(⟨⟨chars "x", chars "uses linear sync", chars "dev", [], []⟩, chars "m",
            chars "o"⟩ : PluginRec)] ∧
        ∃ t ∈ splitWs (lowerP (chars "notion linear")),
          occursIn t (searchableText ⟨⟨chars "x", chars "uses linear sync", chars "dev", [], []⟩,
            chars "m", chars "o"⟩) :=
  c7_free_text_filter.2 _ (chars "notion linear") _ (by decide)

/-- **C7** counterexample to the claim as stated: for the query
`LINEAR` and a record containing only lower-case `linear`, no term of
the query (split on whitespace, not lower-cased) is a substring of the
lower-cased blob, yet the record is kept — because the code lowers the
query before splitting (line 233). -/
theorem c7_uppercase_counterexample :
    search_plugins [⟨⟨chars "x", chars "uses linear sync", chars "dev", [], []⟩,
        chars "m", chars "o"⟩] (some (chars "LINEAR")) none none none =
      [⟨⟨chars "x", chars "uses linear sync", chars "dev", [], []⟩, chars "m", chars "o"⟩] ∧
    splitWs (chars "LINEAR") = [chars "LINEAR"] ∧
    containsSub (searchableText ⟨⟨chars "x", chars "uses linear sync", chars "dev", [], []⟩,
      chars "m", chars "o"⟩) (chars "LINEAR") = false := by
  decide

/-- **C8** (confirmed).  Whenever a download attempt reports failure the
file system is unchanged (so a prior cached file is untouched), every
outcome other than validated content reports failure, and the cache
file is written exactly on the validated-content path. -/
theorem c8_download_failure :
    (∀ (o : DLOutcome) (fs : FS) (n : Path) (now : Int),
      (download_marketplace o fs n now).1 = false → (download_marketplace o fs n now).2 = fs) ∧
    (∀ (o : DLOutcome) (fs : FS) (n : Path) (now : Int),
      (∀ j, o ≠ .contentValid j) → o ≠ .contentValidNonObj →
        download_marketplace o fs n now = (false, fs)) ∧
    (∀ (j : MarketDoc) (fs : FS) (n : Path) (now : Int),
      download_marketplace (.contentValid j) fs n now = (true, fs.write n (.obj j) now)) := by
  refine ⟨?_, ?_, fun j fs n now => rfl⟩
  · intro o fs n now h
    cases o <;> first | rfl | simp [download_marketplace] at h
  · intro o fs n now h1 h2
    cases o <;> first | rfl | exact absurd rfl (h1 _) | exact absurd rfl h2

/-- **C8** witness: a failed download leaves an empty file system
unchanged. -/
theorem c8_download_failure_witness :
    (download_marketplace .curlErr [] (chars "a") 0).2 = [] :=
  c8_download_failure.1 .curlErr [] (chars "a") 0 rfl


/-- **C5** (amended).  Fetch-failure handling of the aggregation loop.
First conjunct: when a source's fetch fails, its cache is stale and a
prior cache file exists, the per-source step falls back to loading that
cache.  Second conjunct: when the fetch fails and no cache file exists,
the step succeeds with no plugins and an unchanged file system — the
source is skipped and the run continues.  Third conjunct: splicing such
a doomed source `mi` (failing fetch, no cache, name distinct from the
other sources') into any configuration does not disturb the rest of the
run — the loop equals the loop on the configuration without `mi` (with
the download outcomes re-indexed) — and in every successful aggregate
the total still counts `mi` while the loaded count, taken over the
remaining sources only, excludes it (its cache file still does not
exist at the end).  The distinct-name proviso is the amendment: with
duplicate identifiers a skipped source can be counted as loaded (see
the counterexample). -/
theorem c5_fetch_failure_handling :
    (∀ (fs : FS) (m : Marketplace) (o : DLOutcome) (now : Int),
      o.succeeds = false →
      needs_update (fs.mtime m.name) now CACHE_DURATION = true →
      fs.existsFile m.name = true →
      processOne fs m o now = loadCache fs m.name) ∧
    (∀ (fs : FS) (m : Marketplace) (o : DLOutcome) (now : Int),
      o.succeeds = false → fs.existsFile m.name = false →
      processOne fs m o now = some (fs, [])) ∧
    (∀ (A : List Marketplace) (mi : Marketplace) (B : List Marketplace)
        (oracle : Nat → DLOutcome) (fs0 : FS) (now : Int),
      (oracle A.length).succeeds = false →
      fs0.existsFile mi.name = false →
      mi.name ∉ A.map Marketplace.name →
      mi.name ∉ B.map Marketplace.name →
      (ensureLoop oracle now (A ++ mi :: B) 0 fs0 =
        ensureLoop (fun j => oracle (if j < A.length then j else j + 1)) now (A ++ B) 0 fs0) ∧
      (∀ res, ensure_all_marketplaces (A ++ mi :: B) oracle fs0 now = some res →
        res.total = A.length + 1 + B.length ∧
        res.finalFS.existsFile mi.name = false ∧
        res.loaded = ((A ++ B).filter (fun m => res.finalFS.existsFile m.name)).length)) := by
  refine ⟨fun fs m o now => processOne_fallback, fun fs m o now => processOne_skip, ?_⟩
  intro A mi B oracle fs0 now hfail h0 hA hB
  have hAnames : ∀ m ∈ A, m.name ≠ mi.name := by
    intro m hm heq
    exact hA (List.mem_map.mpr ⟨m, hm, heq⟩)
  have hBnames : ∀ m ∈ B, m.name ≠ mi.name := by
    intro m hm heq
    exact hB (List.mem_map.mpr ⟨m, hm, heq⟩)
  have hkey : ensureLoop oracle now (A ++ mi :: B) 0 fs0 =
      ensureLoop (fun j => oracle (if j < A.length then j else j + 1)) now (A ++ B) 0 fs0 := by
    rw [ensureLoop_append oracle now A (mi :: B) 0 fs0,
      ensureLoop_append (fun j => oracle (if j < A.length then j else j + 1)) now A B 0 fs0]
    have hAeq : ensureLoop (fun j => oracle (if j < A.length then j else j + 1)) now A 0 fs0 =
        ensureLoop oracle now A 0 fs0 :=
      ensureLoop_congr 0 0 fs0 (fun k hk => by simp [hk])
    rw [hAeq]
    cases hActx : ensureLoop oracle now A 0 fs0 with
    | none => simp
    | some r =>
      obtain ⟨fs1, ps1⟩ := r
      simp only [Option.some_bind]
      have hfs1 : fs1.lookup mi.name = fs0.lookup mi.name :=
        ensureLoop_preserves hAnames 0 fs0 fs1 ps1 hActx
      have hex1 : fs1.existsFile mi.name = false := by
        rw [FS.existsFile, hfs1, existsFile_false_lookup h0]
        rfl
      rw [show (0 : Nat) + A.length = A.length from by omega]
      rw [ensureLoop_cons_bind, processOne_skip hfail hex1]
      simp only [Option.some_bind]
      have hshift : ensureLoop (fun j => oracle (if j < A.length then j else j + 1)) now B
          A.length fs1 = ensureLoop oracle now B (A.length + 1) fs1 := by
        apply ensureLoop_congr
        intro k hk
        have hge : ¬(A.length + k < A.length) := by omega
        simp only [hge, if_false]
        exact congrArg oracle (by omega)
      rw [hshift]
      cases hX : ensureLoop oracle now B (A.length + 1) fs1 <;> simp
  refine ⟨hkey, ?_⟩
  intro res hres
  unfold ensure_all_marketplaces at hres
  cases hloop : ensureLoop oracle now (A ++ mi :: B) 0 fs0 with
  | none => rw [hloop] at hres; exact absurd hres (by simp)
  | some r =>
    obtain ⟨fsf, ps⟩ := r
    rw [hloop] at hres
    replace hres : (some (⟨ps, (A ++ mi :: B).length,
        ((A ++ mi :: B).filter (fun m => fsf.existsFile m.name)).length, fsf⟩ : AggResult)) =
      some res := hres
    injection hres with hres
    subst hres
    have hloop2 : ensureLoop (fun j => oracle (if j < A.length then j else j + 1)) now
        (A ++ B) 0 fs0 = some (fsf, ps) := by
      rw [← hkey]
      exact hloop
    have hfsf : fsf.lookup mi.name = fs0.lookup mi.name :=
      @ensureLoop_preserves _ now (A ++ B) mi.name
        (by
          intro m hm
          rcases List.mem_append.mp hm with h | h
          · exact hAnames m h
          · exact hBnames m h)
        0 fs0 fsf ps hloop2
    have hexf : fsf.existsFile mi.name = false := by
      rw [FS.existsFile, hfsf, existsFile_false_lookup h0]
      rfl
    refine ⟨by simp; omega, hexf, ?_⟩
    show ((A ++ mi :: B).filter (fun m => fsf.existsFile m.name)).length = _
    rw [List.filter_append, List.filter_append, List.filter_cons]
    simp [hexf]

theorem c5_fetch_failure_handling_witness :
    ensureLoop (fun i => if i = 0 then DLOutcome.contentValid ⟨[], .missing⟩ else .curlErr) 0
        ([⟨chars "a", chars "u"⟩] ++ ⟨chars "b", chars "u"⟩ :: []) 0 [] =
      ensureLoop
        (fun j => (fun i => if i = 0 then DLOutcome.contentValid ⟨[], .missing⟩ else .curlErr)
          (if j < ([⟨chars "a", chars "u"⟩] : List Marketplace).length then j else j + 1)) 0
        ([⟨chars "a", chars "u"⟩] ++ []) 0 [] :=
  (c5_fetch_failure_handling.2.2 [⟨chars "a", chars "u"⟩] ⟨chars "b", chars "u"⟩ []
    (fun i => if i = 0 then .contentValid ⟨[], .missing⟩ else .curlErr) [] 0
    (by decide) (by decide) (by decide) (by decide)).1

theorem c5_duplicate_name_counterexample :
    processOne [] ⟨chars "a", chars "u"⟩ .curlErr 0 = some ([], []) ∧
    (ensure_all_marketplaces [⟨chars "a", chars "u"⟩, ⟨chars "a", chars "u"⟩]
        (fun i => if i = 0 then .curlErr else .contentValid ⟨[], .missing⟩) [] 0).map
      (fun r => (r.loaded, r.total)) = some (2, 2) :=
  ⟨rfl, by decide⟩

/-- **C9** (amended).  Every plugin record in a successful aggregate
carries the identifier of some configured source (no orphans), and that
identifier is non-empty provided every configured source identifier is
non-empty.  The proviso is the amendment: nothing stops a configured
identifier from being the empty string, and its records then carry an
empty origin identifier (see the counterexample). -/
theorem c9_origin_source (config : List Marketplace) (oracle : Nat → DLOutcome)
    (fs0 : FS) (now : Int) (res : AggResult)
    (h : ensure_all_marketplaces config oracle fs0 now = some res)
    (p : PluginRec) (hp : p ∈ res.plugins) :
    (∃ m ∈ config, p.marketplace = m.name) ∧
    ((∀ m ∈ config, m.name ≠ []) → p.marketplace ≠ []) := by
  have hmem : ∃ m ∈ config, p.marketplace = m.name := by
    unfold ensure_all_marketplaces at h
    cases hloop : ensureLoop oracle now config 0 fs0 with
    | none => rw [hloop] at h; exact absurd h (by simp)
    | some r =>
      obtain ⟨fsf, ps⟩ := r
      rw [hloop] at h
      replace h : (some (⟨ps, config.length,
          (config.filter (fun m => fsf.existsFile m.name)).length, fsf⟩ : AggResult)) =
        some res := h
      injection h with h
      subst h
      exact ensureLoop_origin 0 fs0 fsf ps hloop p hp
  refine ⟨hmem, ?_⟩
  intro hne
  obtain ⟨m, hm, hpm⟩ := hmem
  rw [hpm]
  exact hne m hm

theorem c9_origin_source_witness :
    (∃ m ∈ ([⟨chars "a", chars "u"⟩] : List Marketplace),
      (⟨⟨chars "p", [], [], [], []⟩, chars "a", chars "Unknown"⟩ : PluginRec).marketplace =
        m.name) ∧
    ((∀ m ∈ ([⟨chars "a", chars "u"⟩] : List Marketplace), m.name ≠ []) →
      (⟨⟨chars "p", [], [], [], []⟩, chars "a", chars "Unknown"⟩ : PluginRec).marketplace ≠
        []) :=
  c9_origin_source [⟨chars "a", chars "u"⟩]
    (fun _ => .contentValid ⟨[⟨chars "p", [], [], [], []⟩], .missing⟩) [] 0
    ⟨[⟨⟨chars "p", [], [], [], []⟩, chars "a", chars "Unknown"⟩], 1, 1,
      [(chars "a", .obj ⟨[⟨chars "p", [], [], [], []⟩], .missing⟩, 0)]⟩
    (by rfl) ⟨⟨chars "p", [], [], [], []⟩, chars "a", chars "Unknown"⟩ (List.Mem.head _)

theorem c9_empty_name_counterexample :
    (ensure_all_marketplaces [⟨[], chars "u"⟩]
        (fun _ => .contentValid ⟨[⟨chars "p", [], [], [], []⟩], .missing⟩) [] 0).map
      (fun r => r.plugins.map (fun p => p.marketplace)) = some [[]] := by
  decide

/-- **C10**.  First conjunct: in every successful aggregate the loaded
count equals the number of configured sources whose cache file exists
on the final file system, regardless of whether the file parsed.
Second conjunct: a single source whose cache file is fresh (so no fetch
is attempted) but malformed contributes zero plugins yet the run
returns loaded = 1 = total, so loaded counts a source that contributed
no records. -/
theorem c10_loaded_count :
    (∀ (config : List Marketplace) (oracle : Nat → DLOutcome) (fs0 : FS) (now : Int)
        (res : AggResult),
      ensure_all_marketplaces config oracle fs0 now = some res →
      res.loaded = (config.filter (fun m => res.finalFS.existsFile m.name)).length) ∧
    (∀ (n u : Path) (t now : Int) (oracle : Nat → DLOutcome),
      now - t ≤ CACHE_DURATION →
      ensure_all_marketplaces [⟨n, u⟩] oracle [(n, .malformed, t)] now =
        some ⟨[], 1, 1, [(n, .malformed, t)]⟩) := by
  constructor
  · intro config oracle fs0 now res h
    unfold ensure_all_marketplaces at h
    cases hloop : ensureLoop oracle now config 0 fs0 with
    | none => rw [hloop] at h; exact absurd h (by simp)
    | some r =>
      obtain ⟨fsf, ps⟩ := r
      rw [hloop] at h
      replace h : (some (⟨ps, config.length,
          (config.filter (fun m => fsf.existsFile m.name)).length, fsf⟩ : AggResult)) =
        some res := h
      injection h with h
      subst h
      rfl
  · intro n u t now oracle hfresh
    have hlook : FS.lookup [(n, .malformed, t)] n = some (.malformed, t) := by
      show (if n = n then some ((.malformed : CacheText), t) else FS.lookup [] n) = _
      rw [if_pos rfl]
    have hnu : needs_update (FS.mtime [(n, .malformed, t)] n) now CACHE_DURATION = false := by
      rw [FS.mtime, hlook]
      show decide (now - t > CACHE_DURATION) = false
      simp only [decide_eq_false_iff_not, not_lt]
      exact hfresh
    have hp : processOne [(n, .malformed, t)] ⟨n, u⟩ (oracle 0) now =
        some ([(n, .malformed, t)], []) := by
      unfold processOne
      rw [if_neg (show ¬ (needs_update (FS.mtime [(n, .malformed, t)] n) now
        CACHE_DURATION = true) from by rw [hnu]; simp)]
      show loadCache [(n, .malformed, t)] n = _
      unfold loadCache
      rw [hlook]
    have hloop : ensureLoop oracle now [⟨n, u⟩] 0 [(n, .malformed, t)] =
        some ([(n, .malformed, t)], []) := by
      rw [ensureLoop_cons_bind, hp]
      rfl
    have hex : FS.existsFile [(n, .malformed, t)] n = true := by
      rw [FS.existsFile, hlook]
      rfl
    unfold ensure_all_marketplaces
    rw [hloop]
    have hfil : List.filter (fun m : Marketplace => FS.existsFile [(n, .malformed, t)] m.name)
        [⟨n, u⟩] = [⟨n, u⟩] := by
      rw [List.filter_cons]
      simp only [hex, if_true, List.filter_nil]
    show (some (⟨[], ([(⟨n, u⟩ : Marketplace)]).length,
        (List.filter (fun m : Marketplace => FS.existsFile [(n, .malformed, t)] m.name)
          [⟨n, u⟩]).length, [(n, .malformed, t)]⟩ : AggResult) : Option AggResult) =
      some ⟨[], 1, 1, [(n, .malformed, t)]⟩
    rw [hfil]
    rfl

theorem c10_loaded_count_witness :
    ensure_all_marketplaces [⟨chars "a", chars "u"⟩] (fun _ => DLOutcome.curlErr)
        [(chars "a", .malformed, 0)] 0 =
      some ⟨[], 1, 1, [(chars "a", .malformed, 0)]⟩ :=
  c10_loaded_count.2 (chars "a") (chars "u") 0 0 (fun _ => .curlErr) (by decide)

end PluginSearch
